import Mathlib

/-!
Verification of the PII redaction engine (`app/services/pii_redactor.py`) and
the LLM router / fallback engine (`app/services/llm_router.py`) of the
ClaimInvestigator-AI backend.

Text is modelled as `List Char` (`Str`).  The Python `re` patterns used by the
redactor are embedded via a small backtracking regular-expression engine whose
match enumeration order coincides with Python's backtracking order on the
constructions these patterns use (character classes, concatenation, ordered
alternation, greedy `?` / `*` / bounded repetition, and `\b` word boundaries).
Character classes follow the ASCII reading of `\d`, `\w`, `\s`.
-/

namespace CIA

abbrev Str := List Char

/-- `text[start:end]` for `start ≤ end`, as used by `match.group(0)` /
`text[start:end]` in the Python source. -/
def strSlice (t : Str) (s e : Nat) : Str := (t.drop s).take (e - s)

/-! ## A tiny regular-expression engine (Python `re` backtracking semantics) -/

/-- Regular expressions: character classes, sequencing, ordered alternation,
greedy option, greedy star and the `\b` word-boundary assertion. -/
inductive RE where
  | eps
  | cls (p : Char → Bool)
  | seq (a b : RE)
  | alt (a b : RE)
  | opt (a : RE)
  | star (a : RE)
  | wb
deriving Inhabited

def isDigitChar (c : Char) : Bool := '0' ≤ c && c ≤ '9'

def isWordChar (c : Char) : Bool :=
  ('a' ≤ c && c ≤ 'z') || ('A' ≤ c && c ≤ 'Z') || isDigitChar c || c = '_'

def isSpaceChar (c : Char) : Bool :=
  c = ' ' || c = '\t' || c = '\n' || c = '\r' || c = '\x0b' || c = '\x0c'

/-- Is position `i` of `s` a `\b` word boundary? -/
def boundary (s : Str) (i : Nat) : Bool :=
  let wl : Bool := match i with
    | 0 => false
    | j + 1 => match s[j]? with
      | some c => isWordChar c
      | none => false
  let wr : Bool := match s[i]? with
    | some c => isWordChar c
    | none => false
  wl != wr

/-- End positions of the greedy star of a sub-matcher `endsA`, in Python's
backtracking preference order (more iterations preferred); each iteration must
consume at least one character.  `fuel` bounds the number of iterations. -/
def starEndsF (endsA : Nat → List Nat) : Nat → Nat → List Nat
  | 0, i => [i]
  | fuel + 1, i =>
      (((endsA i).filter (fun j => i < j)).flatMap (starEndsF endsA fuel)) ++ [i]

/-- All end positions of a match of `r` starting at position `i` of `s`, in
Python's backtracking preference order (head = the match Python finds). -/
def ends : RE → Str → Nat → List Nat
  | .eps, _, i => [i]
  | .cls p, s, i =>
      match s[i]? with
      | some c => if p c then [i + 1] else []
      | none => []
  | .seq a b, s, i => (ends a s i).flatMap (fun j => ends b s j)
  | .alt a b, s, i => ends a s i ++ ends b s i
  | .opt a, s, i => ends a s i ++ [i]
  | .star a, s, i => starEndsF (fun j => ends a s j) (s.length + 1 - i) i
  | .wb, s, i => if boundary s i then [i] else []

/-- The match Python's scanner finds at position `i`, if any. -/
def matchEndAt (r : RE) (s : Str) (i : Nat) : Option Nat :=
  (ends r s i).head?

/-- First match of `r` in `s` at a position `≥ j` (Python's scan loop).
Structural recursion on a fuel argument so the definition reduces in the
kernel; `s.length + 2 - j` fuel always suffices, since the scan stops as soon
as `j` passes `s.length`. -/
def firstMatchFromAux (r : RE) (s : Str) : Nat → Nat → Option (Nat × Nat)
  | _, 0 => none
  | j, fuel + 1 =>
      if j ≤ s.length then
        match matchEndAt r s j with
        | some e => some (j, e)
        | none => firstMatchFromAux r s (j + 1) fuel
      else none

def firstMatchFrom (r : RE) (s : Str) (j : Nat) : Option (Nat × Nat) :=
  firstMatchFromAux r s j (s.length + 2 - j)

/-- All non-overlapping matches of `r` in `s`, resuming after each match
(advancing at least one position past the match start): Python's `finditer`.
Fuel-based structural recursion; the scan position strictly increases and
stays `≤ s.length`, so `s.length + 2` fuel always suffices. -/
def finditerFromAux (r : RE) (s : Str) : Nat → Nat → List (Nat × Nat)
  | _, 0 => []
  | i, fuel + 1 =>
      match firstMatchFrom r s i with
      | none => []
      | some (j, e) => (j, e) :: finditerFromAux r s (max e (j + 1)) fuel

def finditer (r : RE) (s : Str) : List (Nat × Nat) :=
  finditerFromAux r s 0 (s.length + 2)

/-! ### Pattern construction helpers -/

def chr (c : Char) : RE := .cls (fun x => x = c)

/-- Case-insensitive literal character (for patterns compiled with
`re.IGNORECASE`). -/
def chrCI (c : Char) : RE := .cls (fun x => x = c.toLower || x = c.toUpper)

def strRE (cs : Str) : RE := cs.foldr (fun c r => .seq (chr c) r) .eps

def strCI (cs : Str) : RE := cs.foldr (fun c r => .seq (chrCI c) r) .eps

/-- `r{n}`: exactly `n` copies. -/
def repN : Nat → RE → RE
  | 0, _ => .eps
  | n + 1, r => .seq r (repN n r)

/-- `r{0,n}` greedy (longer preferred first), matching Python's order. -/
def upTo : Nat → RE → RE
  | 0, _ => .eps
  | n + 1, r => .opt (.seq r (upTo n r))

/-- `r{m,n}` greedy. -/
def repRange (m n : Nat) (r : RE) : RE := .seq (repN m r) (upTo (n - m) r)

/-- `r+` greedy. -/
def rePlus (r : RE) : RE := .seq r (.star r)

/-- Ordered alternation of a non-empty list (first alternative preferred). -/
def altList (r : RE) (rs : List RE) : RE := rs.foldl .alt r

def reDigit : RE := .cls isDigitChar
def reWordC : RE := .cls isWordChar
def reSpace : RE := .cls isSpaceChar
def reUpper : RE := .cls (fun c => 'A' ≤ c && c ≤ 'Z')
def reLower : RE := .cls (fun c => 'a' ≤ c && c ≤ 'z')

/-! ### The eleven compiled patterns of `PIIRedactor._compile_patterns` -/

/-- `\b\d{3}[-\s]?\d{2}[-\s]?\d{4}\b` -/
def ssnRE : RE :=
  let sep := RE.opt (.cls (fun c => c = '-' || isSpaceChar c))
  .seq .wb <| .seq (repN 3 reDigit) <| .seq sep <| .seq (repN 2 reDigit) <|
    .seq sep <| .seq (repN 4 reDigit) .wb

/-- `\b(?:\+1[-.\s]?)?\(?\d{3}\)?[-.\s]?\d{3}[-.\s]?\d{4}\b` -/
def phoneRE : RE :=
  let sep := RE.opt (.cls (fun c => c = '-' || c = '.' || isSpaceChar c))
  .seq .wb <| .seq (.opt (.seq (chr '+') (.seq (chr '1') sep))) <|
    .seq (.opt (chr '(')) <| .seq (repN 3 reDigit) <| .seq (.opt (chr ')')) <|
    .seq sep <| .seq (repN 3 reDigit) <| .seq sep <| .seq (repN 4 reDigit) .wb

/-- `\b[A-Za-z0-9._%+-]+@[A-Za-z0-9.-]+\.[A-Z|a-z]{2,}\b` (note the literal
`|` inside the last class, as in the source). -/
def emailRE : RE :=
  let c1 := RE.cls (fun c =>
    ('A' ≤ c && c ≤ 'Z') || ('a' ≤ c && c ≤ 'z') || isDigitChar c ||
    c = '.' || c = '_' || c = '%' || c = '+' || c = '-')
  let c2 := RE.cls (fun c =>
    ('A' ≤ c && c ≤ 'Z') || ('a' ≤ c && c ≤ 'z') || isDigitChar c ||
    c = '.' || c = '-')
  let c3 := RE.cls (fun c =>
    ('A' ≤ c && c ≤ 'Z') || ('a' ≤ c && c ≤ 'z') || c = '|')
  .seq .wb <| .seq (rePlus c1) <| .seq (chr '@') <| .seq (rePlus c2) <|
    .seq (chr '.') <| .seq (repN 2 c3) <| .seq (.star c3) .wb

/-- `\b(?:\d{4}[-\s]?){3}\d{4}\b` -/
def creditCardRE : RE :=
  let sep := RE.opt (.cls (fun c => c = '-' || isSpaceChar c))
  .seq .wb <| .seq (repN 3 (.seq (repN 4 reDigit) sep)) <| .seq (repN 4 reDigit) .wb

/-- `\b(?:\d{1,3}\.){3}\d{1,3}\b` -/
def ipRE : RE :=
  .seq .wb <| .seq (repN 3 (.seq (repRange 1 3 reDigit) (chr '.'))) <|
    .seq (repRange 1 3 reDigit) .wb

/-- The `DATE_TIME` pattern: `\d{1,2} sl \d{1,2} sl \d{2,4}` or
`\d{4} sl \d{1,2} sl \d{1,2}` between word boundaries, where `sl` is the
two-character class of `'/'` and `'-'`. -/
def dateRE : RE :=
  let sl := RE.cls (fun c => c = '/' || c = '-')
  let alt1 := RE.seq (repRange 1 2 reDigit) <| .seq sl <|
    .seq (repRange 1 2 reDigit) <| .seq sl (repRange 2 4 reDigit)
  let alt2 := RE.seq (repN 4 reDigit) <| .seq sl <|
    .seq (repRange 1 2 reDigit) <| .seq sl (repRange 1 2 reDigit)
  .seq .wb (.seq (.alt alt1 alt2) .wb)

/-- `\b(?:CLM|CLAIM|CL)[-#]?\d{6,12}\b`, `re.IGNORECASE` -/
def claimNumRE : RE :=
  .seq .wb <| .seq (altList (strCI "CLM".data) [strCI "CLAIM".data, strCI "CL".data]) <|
    .seq (.opt (.cls (fun c => c = '-' || c = '#'))) <| .seq (repRange 6 12 reDigit) .wb

/-- `\b(?:POL|POLICY|PL)[-#]?\d{6,12}\b`, `re.IGNORECASE` -/
def policyNumRE : RE :=
  .seq .wb <| .seq (altList (strCI "POL".data) [strCI "POLICY".data, strCI "PL".data]) <|
    .seq (.opt (.cls (fun c => c = '-' || c = '#'))) <| .seq (repRange 6 12 reDigit) .wb

/-- `\b[A-Z]{1,2}\d{6,8}\b` -/
def driverLicenseRE : RE :=
  .seq .wb (.seq (repRange 1 2 reUpper) (.seq (repRange 6 8 reDigit) .wb))

/-- `\b(?:MRN|MR)[-#]?\d{6,10}\b`, `re.IGNORECASE` -/
def medicalRE : RE :=
  .seq .wb <| .seq (altList (strCI "MRN".data) [strCI "MR".data]) <|
    .seq (.opt (.cls (fun c => c = '-' || c = '#'))) <| .seq (repRange 6 10 reDigit) .wb

/-- `\b\d{1,5}\s+[\w\s]{1,30}(?:Street|St|Avenue|Ave|Road|Rd|Boulevard|Blvd|Drive|Dr|Lane|Ln|Way|Court|Ct|Circle|Cir)\.?\b`, `re.IGNORECASE` -/
def locationRE : RE :=
  let ws := RE.cls (fun c => isWordChar c || isSpaceChar c)
  let suffix := altList (strCI "Street".data)
    [strCI "St".data, strCI "Avenue".data, strCI "Ave".data, strCI "Road".data,
     strCI "Rd".data, strCI "Boulevard".data, strCI "Blvd".data, strCI "Drive".data,
     strCI "Dr".data, strCI "Lane".data, strCI "Ln".data, strCI "Way".data,
     strCI "Court".data, strCI "Ct".data, strCI "Circle".data, strCI "Cir".data]
  .seq .wb <| .seq (repRange 1 5 reDigit) <| .seq (rePlus reSpace) <|
    .seq (repRange 1 30 ws) <| .seq suffix <| .seq (.opt (chr '.')) .wb

/-- The pattern table of `_compile_patterns`, in Python dict insertion order. -/
def patterns : List (String × RE) :=
  [("US_SSN", ssnRE), ("PHONE_NUMBER", phoneRE), ("EMAIL_ADDRESS", emailRE),
   ("CREDIT_CARD", creditCardRE), ("IP_ADDRESS", ipRE), ("DATE_TIME", dateRE),
   ("CLAIM_NUMBER", claimNumRE), ("POLICY_NUMBER", policyNumRE),
   ("US_DRIVER_LICENSE", driverLicenseRE), ("MEDICAL_LICENSE", medicalRE),
   ("LOCATION", locationRE)]

/-! ## Data model of `pii_redactor.py` -/

/-- A candidate detected span: the `(start, end, type, original)` tuples of
`PIIRedactor.redact` (`end` is exclusive). -/
structure PIIEntityMatch where
  start : Nat
  «end» : Nat
  entity_type : String
  original : Str
deriving DecidableEq, Repr

/-- The `PIIMapping` dataclass. -/
structure PIIMapping where
  original : Str
  placeholder : Str
  entity_type : String
  start : Nat
  «end» : Nat
deriving DecidableEq, Repr

/-- The `RedactionResult` dataclass.  `entities_found` is an insertion-ordered
association list, modelling the Python dict. -/
structure RedactionResult where
  redacted_text : Str
  mappings : List PIIMapping
  entities_found : List (String × Nat)
deriving DecidableEq, Repr

/-- The per-instance configuration consulted by `redact`
(`settings.ENABLE_PII_REDACTION` / `settings.PII_ENTITIES_TO_REDACT`). -/
structure RedactorConfig where
  enabled : Bool
  entities_to_redact : List String
deriving DecidableEq, Repr

/-! ## Name detection (`PIIRedactor._detect_names`) -/

/-- `\b(Mr|Mrs|Ms|Miss|Dr|Prof)\.?\s+([A-Z][a-z]+(?:\s+[A-Z][a-z]+)?)\b` -/
def titleNameRE : RE :=
  let word := RE.seq reUpper (rePlus reLower)
  .seq .wb <|
    .seq (altList (strRE "Mr".data)
      [strRE "Mrs".data, strRE "Ms".data, strRE "Miss".data,
       strRE "Dr".data, strRE "Prof".data]) <|
    .seq (.opt (chr '.')) <| .seq (rePlus reSpace) <|
    .seq word <| .seq (.opt (.seq (rePlus reSpace) word)) .wb

/-- `\b([A-Z][a-z]+)\s+([A-Z][a-z]+)\b` -/
def twoCapsRE : RE :=
  let word := RE.seq reUpper (rePlus reLower)
  .seq .wb (.seq word (.seq (rePlus reSpace) (.seq word .wb)))

/-- The `exclude_pairs` set of `_detect_names`. -/
def excludePairs : List Str :=
  ["First Notice".data, "Notice Loss".data, "Property Damage".data,
   "Bodily Injury".data, "General Liability".data, "Workers Compensation".data,
   "United States".data, "New York".data, "Los Angeles".data,
   "San Francisco".data, "San Diego".data, "Police Report".data,
   "Medical Records".data, "Insurance Company".data]

/-- One step of the two-capitalized-words loop of `_detect_names`: skip
matches in `exclude_pairs` and matches whose start lies inside an
already-recorded name span, else append. -/
def twoCapsStep (text : Str) (names : List (Nat × Nat × String)) (m : Nat × Nat) :
    List (Nat × Nat × String) :=
  if strSlice text m.1 m.2 ∈ excludePairs then names
  else if names.any (fun nm => nm.1 ≤ m.1 && m.1 < nm.2.1) then names
  else names ++ [(m.1, m.2, "PERSON")]

/-- `PIIRedactor._detect_names`: title matches first, then the filtered
two-capitalized-words matches (the filter consults the growing list). -/
def detectNames (text : Str) : List (Nat × Nat × String) :=
  let titles := (finditer titleNameRE text).map (fun m => (m.1, m.2, "PERSON"))
  (finditer twoCapsRE text).foldl (twoCapsStep text) titles

/-! ## Detection phase of `PIIRedactor.redact` -/

/-- The regex-based match collection of `redact`: each pattern runs when its
entity type is configured **or** is `CLAIM_NUMBER` / `POLICY_NUMBER`
("Always redact these"). -/
def regexMatches (cfg : RedactorConfig) (text : Str) : List PIIEntityMatch :=
  patterns.flatMap (fun pat =>
    if pat.1 ∈ cfg.entities_to_redact ∨ pat.1 ∈ ["CLAIM_NUMBER", "POLICY_NUMBER"] then
      (finditer pat.2 text).map (fun m =>
        ⟨m.1, m.2, pat.1, strSlice text m.1 m.2⟩)
    else [])

/-- All candidate matches collected by `redact` (regex patterns in dict order,
then names when `PERSON` is configured). -/
def detectAll (cfg : RedactorConfig) (text : Str) : List PIIEntityMatch :=
  regexMatches cfg text ++
    (if "PERSON" ∈ cfg.entities_to_redact then
      (detectNames text).map (fun m => ⟨m.1, m.2.1, m.2.2, strSlice text m.1 m.2.1⟩)
    else [])

/-- Stable insertion preserving Python's `list.sort(key=start, reverse=True)`
order: `m` goes before the first element whose start is `≤` its own. -/
def insertByStartDesc (m : PIIEntityMatch) : List PIIEntityMatch → List PIIEntityMatch
  | [] => [m]
  | y :: ys => if y.start ≤ m.start then m :: y :: ys else y :: insertByStartDesc m ys

/-- `all_matches.sort(key=lambda x: x[0], reverse=True)`: stable descending
sort by start offset. -/
def sortByStartDesc : List PIIEntityMatch → List PIIEntityMatch
  | [] => []
  | m :: ms => insertByStartDesc m (sortByStartDesc ms)

/-- The overlap test of `redact`: intervals `[start, end)` intersect
(`not (end <= f_start or start >= f_end)` in the source). -/
def overlapsB (m f : PIIEntityMatch) : Bool :=
  !(m.«end» ≤ f.start || m.start ≥ f.«end»)

/-- The greedy overlap filter of `redact`: keep a candidate only if it
overlaps no already-kept match. -/
def filterOverlapsAux (acc : List PIIEntityMatch) :
    List PIIEntityMatch → List PIIEntityMatch
  | [] => acc
  | m :: rest =>
      if acc.any (fun f => overlapsB m f) then filterOverlapsAux acc rest
      else filterOverlapsAux (acc ++ [m]) rest

def filterOverlaps (l : List PIIEntityMatch) : List PIIEntityMatch :=
  filterOverlapsAux [] l

/-! ## Placeholder generation (`PIIRedactor._get_placeholder`) -/

/-- The decimal digit character for `k % 10`. -/
def digitChar : Nat → Char
  | 0 => '0'
  | 1 => '1'
  | 2 => '2'
  | 3 => '3'
  | 4 => '4'
  | 5 => '5'
  | 6 => '6'
  | 7 => '7'
  | 8 => '8'
  | _ => '9'

/-- Decimal digits of `n`, most significant first (Python's `str(n)`).
Fuel-based so it reduces in the kernel; `n` itself bounds the recursion
depth. -/
def natDigitsAux : Nat → Nat → Str
  | _, 0 => []
  | n, fuel + 1 =>
      if n < 10 then [digitChar n]
      else natDigitsAux (n / 10) fuel ++ [digitChar (n % 10)]

def natDigits (n : Nat) : Str := natDigitsAux n (n + 1)

/-- The `type_map` table of `_get_placeholder`. -/
def typeMap : List (String × String) :=
  [("PERSON", "PERSON"), ("PHONE_NUMBER", "PHONE"), ("EMAIL_ADDRESS", "EMAIL"),
   ("US_SSN", "SSN"), ("CREDIT_CARD", "CC"), ("IP_ADDRESS", "IP"),
   ("DATE_TIME", "DATE"), ("CLAIM_NUMBER", "CLAIM_NUM"),
   ("POLICY_NUMBER", "POLICY_NUM"), ("US_DRIVER_LICENSE", "DL"),
   ("MEDICAL_LICENSE", "MRN"), ("LOCATION", "LOCATION")]

/-- `type_map.get(entity_type, entity_type)`. -/
def typePrefix (ty : String) : String := (typeMap.lookup ty).getD ty

/-- Counter update of `_get_placeholder`: insert-or-increment, preserving
dict insertion order. -/
def counterBump (ty : String) : List (String × Nat) → List (String × Nat)
  | [] => [(ty, 1)]
  | (k, v) :: rest =>
      if k = ty then (k, v + 1) :: rest else (k, v) :: counterBump ty rest

/-- `self._counters[entity_type]` (0 when absent). -/
def counterGet : List (String × Nat) → String → Nat
  | [], _ => 0
  | (k, v) :: rest, ty => if k = ty then v else counterGet rest ty

/-- The placeholder string `[<prefix>_<n>]`. -/
def mkPlaceholder (ty : String) (n : Nat) : Str :=
  '[' :: (typePrefix ty).data ++ '_' :: natDigits n ++ [']']

/-- `PIIRedactor._get_placeholder`: bump the counter for the type and render
the placeholder. -/
def getPlaceholder (counters : List (String × Nat)) (ty : String) :
    Str × List (String × Nat) :=
  let counters' := counterBump ty counters
  (mkPlaceholder ty (counterGet counters' ty), counters')

/-! ## Replacement phase of `PIIRedactor.redact` -/

/-- State threaded through the replacement loop of `redact`. -/
structure RedactState where
  counters : List (String × Nat)
  mappings : List PIIMapping
  entities_found : List (String × Nat)
  redacted_text : Str
deriving Repr

/-- One iteration of `for start, end, entity_type, original in
filtered_matches`: generate the placeholder, record the mapping, count the
entity, splice the placeholder into the text. -/
def redactStep (st : RedactState) (m : PIIEntityMatch) : RedactState :=
  let (ph, counters') := getPlaceholder st.counters m.entity_type
  { counters := counters'
    mappings := st.mappings ++ [⟨m.original, ph, m.entity_type, m.start, m.«end»⟩]
    entities_found := counterBump m.entity_type st.entities_found
    redacted_text :=
      st.redacted_text.take m.start ++ ph ++ st.redacted_text.drop m.«end» }

/-- `PIIRedactor.redact`. -/
def redact (cfg : RedactorConfig) (text : Str) : RedactionResult :=
  if !cfg.enabled then ⟨text, [], []⟩
  else if text.isEmpty then ⟨[], [], []⟩
  else
    let filtered := filterOverlaps (sortByStartDesc (detectAll cfg text))
    let st := filtered.foldl redactStep ⟨[], [], [], text⟩
    ⟨st.redacted_text, st.mappings.reverse, st.entities_found⟩

/-! ## Restoration (`PIIRedactor.restore`) -/

/-- Python code-point comparison of strings (`<` on `str`). -/
def strLt : Str → Str → Bool
  | [], [] => false
  | [], _ :: _ => true
  | _ :: _, [] => false
  | a :: as, b :: bs => if a < b then true else if b < a then false else strLt as bs

/-- Stable insertion for `sorted(mappings, key=placeholder, reverse=True)`. -/
def insertByPhDesc (m : PIIMapping) : List PIIMapping → List PIIMapping
  | [] => [m]
  | y :: ys =>
      if strLt m.placeholder y.placeholder then y :: insertByPhDesc m ys
      else m :: y :: ys

def sortByPhDesc : List PIIMapping → List PIIMapping
  | [] => []
  | m :: ms => insertByPhDesc m (sortByPhDesc ms)

/-- Whether `pat` is a prefix of `s`. -/
def leadsWith : Str → Str → Bool
  | [], _ => true
  | _ :: _, [] => false
  | a :: as, b :: bs => a = b && leadsWith as bs

/-- Python `str.replace(pat, rep)`: replace every non-overlapping occurrence,
scanning left to right.  Fuel-based structural recursion (`s.length + 1` fuel
suffices since each step consumes at least one character of `s`); the
placeholders this is invoked with are never empty. -/
def replaceAllAux (pat rep : Str) : Str → Nat → Str
  | _, 0 => []
  | [], _ + 1 => []
  | c :: rest, fuel + 1 =>
      if pat ≠ [] ∧ leadsWith pat (c :: rest) then
        rep ++ replaceAllAux pat rep ((c :: rest).drop pat.length) fuel
      else c :: replaceAllAux pat rep rest fuel

def replaceAll (s pat rep : Str) : Str := replaceAllAux pat rep s s.length

/-- `PIIRedactor.restore`: replay the replacements with placeholders sorted
descending. -/
def restore (redacted_text : Str) (mappings : List PIIMapping) : Str :=
  (sortByPhDesc mappings).foldl
    (fun t m => replaceAll t m.placeholder m.original) redacted_text

/-! ## LLM router (`app/services/llm_router.py`)

Providers are identified by their configuration-key strings, as in the
source.  External calls are modelled by an environment assigning each raw
HTTP attempt (provider, 1-based attempt index) an outcome: transport failure
(`raise_for_status` / network error, retried by `tenacity`), an HTTP success
whose envelope `_extract_response_text` rejects (raises `ValueError`, not
retried inside the call), or a parseable success carrying the canonical
text. -/

/-- The `LLMProvider` enum of `claim_models.py`. -/
inductive LLMProvider where
  | claude | openai | gemini | azure | auto
deriving DecidableEq, Repr

def LLMProvider.value : LLMProvider → String
  | .claude => "claude"
  | .openai => "openai"
  | .gemini => "gemini"
  | .azure => "azure"
  | .auto => "auto"

/-- The `TaskType` enum of `llm_router.py`. -/
inductive TaskType where
  | claim_triage | question_generation | coverage_analysis
  | file_notes | extraction | general
deriving DecidableEq, Repr

def TaskType.value : TaskType → String
  | .claim_triage => "claim_triage"
  | .question_generation => "question_generation"
  | .coverage_analysis => "coverage_analysis"
  | .file_notes => "file_notes"
  | .extraction => "extraction"
  | .general => "general"

/-- `settings.ROUTING_STRATEGY` (note `enterprise_demo` names no
`TaskType`). -/
def ROUTING_STRATEGY : List (String × String) :=
  [("claim_triage", "claude"), ("question_generation", "claude"),
   ("coverage_analysis", "claude"), ("file_notes", "openai"),
   ("extraction", "gemini"), ("enterprise_demo", "azure")]

/-- The read-only routing data an `LLMRouter` instance holds after
construction: `default_provider`, `routing_strategy` and the availability
list computed by `_check_available_providers` (in the fixed enumeration
order claude, openai, gemini, azure). -/
structure LLMRouterState where
  default_provider : String
  routing_strategy : List (String × String)
  available_providers : List String
deriving DecidableEq, Repr

/-- The errors that cross `complete`'s boundary: `ValueError("No LLM
providers available...")` and `RuntimeError("All LLM providers failed")`. -/
inductive RouterError where
  | configError | allProvidersFailed
deriving DecidableEq, Repr

/-- Steps 2–4 of `_select_provider` (after the explicit-preference check):
task-optimized routing with the default as the `dict.get` fallback, then the
default provider, then the first available provider, else the
no-providers-available error. -/
def selectRest (r : LLMRouterState) (task : TaskType) : Except RouterError String :=
  let optimal := (r.routing_strategy.lookup task.value).getD r.default_provider
  if optimal ∈ r.available_providers then .ok optimal
  else if r.default_provider ∈ r.available_providers then .ok r.default_provider
  else
    match r.available_providers with
    | p :: _ => .ok p
    | [] => .error .configError

/-- `LLMRouter._select_provider`.  A present, non-`AUTO` preference is used
when available; otherwise (including `AUTO`, which is explicitly skipped)
routing proceeds as in `selectRest`. -/
def selectProvider (r : LLMRouterState) (task : TaskType)
    (preferred : Option LLMProvider) : Except RouterError String :=
  match preferred with
  | some p =>
      if p = .auto then selectRest r task
      else if p.value ∈ r.available_providers then .ok p.value
      else selectRest r task
  | none => selectRest r task

/-- Outcome of one raw provider attempt. -/
inductive AttemptResult where
  | httpFail
  | respBad
  | respGood (text : String)
deriving DecidableEq, Repr

/-- The world of external calls. -/
abbrev CallEnv := String → Nat → AttemptResult

/-- A `@retry(stop=stop_after_attempt(3), ...)`-decorated `_call_<provider>`
invocation: up to three raw attempts, stopping at the first non-transport
outcome; `none` means all three attempts raised.  Also returns the number of
raw attempts issued. -/
def callWithRetry (env : CallEnv) (p : String) : Option AttemptResult × Nat :=
  match env p 1 with
  | .httpFail =>
      match env p 2 with
      | .httpFail =>
          match env p 3 with
          | .httpFail => (none, 3)
          | r => (some r, 3)
      | r => (some r, 2)
  | r => (some r, 1)

/-- The canonical completion payload: the `text` / `provider` / `fallback`
fields of the dict `complete` returns (`fallback` is absent, i.e. false, on
the primary path). -/
structure CompletionOut where
  text : String
  provider : String
  fallback : Bool
deriving DecidableEq, Repr

/-- The fixed fallback priority order of `_try_fallback`. -/
def fallbackOrder : List String := ["claude", "openai", "gemini", "azure"]

/-- `LLMRouter._try_fallback`, walking `order`: skip the failed provider and
unavailable providers; call each remaining provider through its retry-wrapped
`_call_<provider>`; return the first parseable success, else the terminal
all-providers-failed error.  The second component is the raw-attempt trace
(provider, raw attempts issued). -/
def tryFallbackAux (env : CallEnv) (avail : List String) (failed : String) :
    List String → Except RouterError CompletionOut × List (String × Nat)
  | [] => (.error .allProvidersFailed, [])
  | p :: rest =>
      if p = failed ∨ p ∉ avail then tryFallbackAux env avail failed rest
      else
        match callWithRetry env p with
        | (some (.respGood t), n) => (.ok ⟨t, p, true⟩, [(p, n)])
        | (_, n) =>
            let r := tryFallbackAux env avail failed rest
            (r.1, (p, n) :: r.2)

def tryFallback (env : CallEnv) (avail : List String) (failed : String) :
    Except RouterError CompletionOut × List (String × Nat) :=
  tryFallbackAux env avail failed fallbackOrder

/-- `LLMRouter.complete`: select a provider (failing with no network call
when none is available), call it with retry, and on any failure — transport
exhaustion, a rejected response envelope, or an unknown provider name — fall
back via `_try_fallback`.  The second component is the raw-attempt trace. -/
def complete (env : CallEnv) (r : LLMRouterState) (task : TaskType)
    (preferred : Option LLMProvider) :
    Except RouterError CompletionOut × List (String × Nat) :=
  match selectProvider r task preferred with
  | .error e => (.error e, [])
  | .ok p =>
      if p ∈ fallbackOrder then
        match callWithRetry env p with
        | (some (.respGood t), n) => (.ok ⟨t, p, false⟩, [(p, n)])
        | (_, n) =>
            let fr := tryFallback env r.available_providers p
            (fr.1, (p, n) :: fr.2)
      else
        tryFallback env r.available_providers p

/-! ## Router theorems -/

/-- Provider selection as §4.2 of the specification words it (spec-modelled
cascade, for comparison with `selectProvider`): an available explicit
non-`AUTO` preference, else the routing-strategy entry for the task when
available, else the default provider when available, else the first available
provider; `none` when no provider is available. -/
def specSelectCascade (r : LLMRouterState) (task : TaskType)
    (preferred : Option LLMProvider) : Option String :=
  (preferred.bind fun p =>
    if p ≠ .auto ∧ p.value ∈ r.available_providers then some p.value else none) <|>
  ((r.routing_strategy.lookup task.value).bind fun e =>
    if e ∈ r.available_providers then some e else none) <|>
  (if r.default_provider ∈ r.available_providers then some r.default_provider
   else none) <|>
  r.available_providers.head?

theorem selectRest_eq_cascade (r : LLMRouterState) (task : TaskType) :
    selectRest r task =
      match (((r.routing_strategy.lookup task.value).bind fun e =>
          if e ∈ r.available_providers then some e else none) <|>
        (if r.default_provider ∈ r.available_providers then some r.default_provider
         else none) <|>
        r.available_providers.head?) with
      | some p => .ok p
      | none => .error .configError := by
  unfold selectRest
  cases hl : r.routing_strategy.lookup task.value with
  | none =>
      simp only [Option.getD, Option.bind, Option.none_orElse]
      by_cases hd : r.default_provider ∈ r.available_providers
      · simp [hd]
      · simp only [if_neg hd]
        cases hav : r.available_providers with
        | nil => simp
        | cons p l => simp
  | some e =>
      simp only [Option.getD, Option.bind]
      by_cases he : e ∈ r.available_providers
      · simp [he]
      · simp only [if_neg he, Option.none_orElse]
        by_cases hd : r.default_provider ∈ r.available_providers
        · simp [hd]
        · simp only [if_neg hd]
          cases hav : r.available_providers with
          | nil => simp
          | cons p l => simp

/-- C4 (main part): `_select_provider` realises the spec's strict priority
cascade, returning the configuration error exactly when no provider is
available. -/
theorem selectProvider_eq_cascade (r : LLMRouterState) (task : TaskType)
    (preferred : Option LLMProvider) :
    selectProvider r task preferred =
      match specSelectCascade r task preferred with
      | some p => .ok p
      | none => .error .configError := by
  cases preferred with
  | none => simpa [selectProvider, specSelectCascade] using selectRest_eq_cascade r task
  | some p =>
      by_cases ha : p = .auto
      · subst ha
        simpa [selectProvider, specSelectCascade] using selectRest_eq_cascade r task
      · by_cases hv : p.value ∈ r.available_providers
        · simp [selectProvider, specSelectCascade, ha, hv, Option.some_orElse]
        · simpa [selectProvider, specSelectCascade, ha, hv] using selectRest_eq_cascade r task

theorem selectProvider_none_available (r : LLMRouterState) (task : TaskType)
    (preferred : Option LLMProvider) (h : r.available_providers = []) :
    selectProvider r task preferred = .error .configError := by
  rw [selectProvider_eq_cascade]
  simp [specSelectCascade, h]

/-- C4: provider selection follows the strict priority order (explicit
available preference, then the routing-strategy entry, then the default,
then the first available provider), and with zero available providers
`complete` fails immediately with the configuration error, issuing no
network call (empty raw-attempt trace). -/
theorem c4_selection_priority (env : CallEnv) (r : LLMRouterState)
    (task : TaskType) (preferred : Option LLMProvider) :
    (selectProvider r task preferred =
      match specSelectCascade r task preferred with
      | some p => .ok p
      | none => .error .configError) ∧
    (r.available_providers = [] →
      complete env r task preferred = (.error .configError, [])) := by
  refine ⟨selectProvider_eq_cascade r task preferred, fun h => ?_⟩
  unfold complete
  rw [selectProvider_none_available r task preferred h]

/-- C4 witness instance: a router with no available providers. -/
theorem c4_selection_priority_witness :
    (⟨"claude", ROUTING_STRATEGY, []⟩ : LLMRouterState).available_providers = [] ∧
    complete (fun _ _ => .httpFail) ⟨"claude", ROUTING_STRATEGY, []⟩
        .claim_triage none = (.error .configError, []) := by
  exact ⟨rfl,
    (c4_selection_priority (fun _ _ => .httpFail) ⟨"claude", ROUTING_STRATEGY, []⟩
      .claim_triage none).2 rfl⟩

/-- C10: passing `LLMProvider.AUTO` as the preferred provider selects exactly
as passing no preference at all. -/
theorem c10_auto_eq_no_preference (r : LLMRouterState) (task : TaskType) :
    selectProvider r task (some .auto) = selectProvider r task none := by
  simp [selectProvider]

/-- Does the retry-wrapped call to `p` end in a parseable success? -/
def retryGood (env : CallEnv) (p : String) : Bool :=
  match (callWithRetry env p).1 with
  | some (.respGood _) => true
  | _ => false

/-- The text of a parseable success of the retry-wrapped call to `p`. -/
def retryText (env : CallEnv) (p : String) : String :=
  match (callWithRetry env p).1 with
  | some (.respGood t) => t
  | _ => ""

theorem callWithRetry_attempts (env : CallEnv) (p : String) :
    1 ≤ (callWithRetry env p).2 ∧ (callWithRetry env p).2 ≤ 3 := by
  unfold callWithRetry
  cases env p 1 <;> simp <;> cases env p 2 <;> simp <;> cases env p 3 <;> simp

theorem tryFallbackAux_spec (env : CallEnv) (avail : List String)
    (failed : String) (order : List String) :
    (tryFallbackAux env avail failed order).1 =
      (match (order.filter fun q => !decide (q = failed ∨ q ∉ avail)).find?
          (retryGood env) with
        | some p => .ok ⟨retryText env p, p, true⟩
        | none => .error .allProvidersFailed) ∧
    ∀ pr ∈ (tryFallbackAux env avail failed order).2,
      pr.1 ≠ failed ∧ pr.1 ∈ avail ∧ pr.1 ∈ order ∧
        pr.2 = (callWithRetry env pr.1).2 ∧ 1 ≤ pr.2 ∧ pr.2 ≤ 3 := by
  induction order with
  | nil => exact ⟨rfl, by simp [tryFallbackAux]⟩
  | cons p rest ih =>
      by_cases hskip : p = failed ∨ p ∉ avail
      · constructor
        · rw [tryFallbackAux, if_pos hskip, List.filter_cons_of_neg (by simp [hskip])]
          exact ih.1
        · intro pr hpr
          rw [tryFallbackAux, if_pos hskip] at hpr
          have := ih.2 pr hpr
          exact ⟨this.1, this.2.1, List.mem_cons_of_mem _ this.2.2.1, this.2.2.2⟩
      · have hfil : (List.filter (fun q => !decide (q = failed ∨ q ∉ avail)) (p :: rest)) =
            p :: rest.filter (fun q => !decide (q = failed ∨ q ∉ avail)) :=
          List.filter_cons_of_pos (by simp [hskip])
        push_neg at hskip
        constructor
        · rw [tryFallbackAux, if_neg (by simp [hskip.1, hskip.2]), hfil]
          cases hc : callWithRetry env p with
          | mk res n =>
            cases res with
            | none =>
                have hg : retryGood env p = false := by simp [retryGood, hc]
                rw [List.find?_cons_of_neg _ (by simp [hg])]
                exact ih.1
            | some a =>
                cases a with
                | httpFail =>
                    have hg : retryGood env p = false := by simp [retryGood, hc]
                    rw [List.find?_cons_of_neg _ (by simp [hg])]
                    exact ih.1
                | respBad =>
                    have hg : retryGood env p = false := by simp [retryGood, hc]
                    rw [List.find?_cons_of_neg _ (by simp [hg])]
                    exact ih.1
                | respGood t =>
                    have hg : retryGood env p = true := by simp [retryGood, hc]
                    rw [List.find?_cons_of_pos _ hg]
                    simp [retryText, hc]
        · intro pr hpr
          rw [tryFallbackAux, if_neg (by simp [hskip.1, hskip.2])] at hpr
          have hat := callWithRetry_attempts env p
          cases hc : callWithRetry env p with
          | mk res n =>
            rw [hc] at hpr hat
            cases res with
            | none =>
                rcases List.mem_cons.mp hpr with h | h
                · subst h
                  exact ⟨hskip.1, hskip.2, List.mem_cons_self _ _, by rw [hc], hat⟩
                · have := ih.2 pr h
                  exact ⟨this.1, this.2.1, List.mem_cons_of_mem _ this.2.2.1, this.2.2.2⟩
            | some a =>
                cases a with
                | httpFail =>
                    rcases List.mem_cons.mp hpr with h | h
                    · subst h
                      exact ⟨hskip.1, hskip.2, List.mem_cons_self _ _, by rw [hc], hat⟩
                    · have := ih.2 pr h
                      exact ⟨this.1, this.2.1, List.mem_cons_of_mem _ this.2.2.1, this.2.2.2⟩
                | respBad =>
                    rcases List.mem_cons.mp hpr with h | h
                    · subst h
                      exact ⟨hskip.1, hskip.2, List.mem_cons_self _ _, by rw [hc], hat⟩
                    · have := ih.2 pr h
                      exact ⟨this.1, this.2.1, List.mem_cons_of_mem _ this.2.2.1, this.2.2.2⟩
                | respGood t =>
                    simp only [List.mem_singleton] at hpr
                    subst hpr
                    exact ⟨hskip.1, hskip.2, List.mem_cons_self _ _, by rw [hc], hat⟩

instance {ε α : Type} [DecidableEq ε] [DecidableEq α] : DecidableEq (Except ε α) :=
  fun a b =>
    match a, b with
    | .ok x, .ok y =>
        if h : x = y then isTrue (by rw [h])
        else isFalse (fun hh => h (by cases hh; rfl))
    | .error x, .error y =>
        if h : x = y then isTrue (by rw [h])
        else isFalse (fun hh => h (by cases hh; rfl))
    | .ok _, .error _ => isFalse (fun hh => by cases hh)
    | .error _, .ok _ => isFalse (fun hh => by cases hh)

/-- C3 (amended): when the selected provider's retry-wrapped call yields no
parseable success, `complete` walks the fixed priority order claude, openai,
gemini, azure, skipping the failed and the unavailable providers, issuing one
**retried** call (one to three raw attempts, exactly as the primary call) per
walked provider; it returns the first parseable success with `fallback = true`
and the all-providers-failed error when every walked provider fails. -/
theorem c3_fallback_walk (env : CallEnv) (r : LLMRouterState) (task : TaskType)
    (preferred : Option LLMProvider) (s : String)
    (hs : selectProvider r task preferred = .ok s)
    (hfail : ∀ t, (callWithRetry env s).1 ≠ some (.respGood t)) :
    (complete env r task preferred).1 =
      (match (fallbackOrder.filter fun q =>
          !decide (q = s ∨ q ∉ r.available_providers)).find? (retryGood env) with
        | some p => .ok ⟨retryText env p, p, true⟩
        | none => .error .allProvidersFailed) ∧
    ∀ pr ∈ (tryFallback env r.available_providers s).2,
      pr.1 ≠ s ∧ pr.1 ∈ r.available_providers ∧ pr.1 ∈ fallbackOrder ∧
        pr.2 = (callWithRetry env pr.1).2 ∧ 1 ≤ pr.2 ∧ pr.2 ≤ 3 := by
  have hspec := tryFallbackAux_spec env r.available_providers s fallbackOrder
  refine ⟨?_, hspec.2⟩
  unfold complete
  rw [hs]
  dsimp only
  by_cases hmem : s ∈ fallbackOrder
  · rw [if_pos hmem]
    cases hc : callWithRetry env s with
    | mk res n =>
      cases res with
      | none => simpa [tryFallback] using hspec.1
      | some a =>
          cases a with
          | httpFail => simpa [tryFallback] using hspec.1
          | respBad => simpa [tryFallback] using hspec.1
          | respGood t => exact absurd (by rw [hc]) (hfail t)
  · rw [if_neg hmem]
    simpa [tryFallback] using hspec.1

/-- The concrete two-provider world used against C3 as stated: the selected
provider claude always fails; openai fails its first raw attempt and succeeds
on the second. -/
def envC3 : CallEnv := fun p k =>
  if p = "openai" ∧ k = 2 then .respGood "ok" else .httpFail

def routerC3 : LLMRouterState :=
  ⟨"claude", ROUTING_STRATEGY, ["claude", "openai"]⟩

/-- C3 counterexample: in `envC3` the fallback succeeds with openai and
`fallback = true`, but the fallback call to openai issued **two** raw
attempts — the walked provider's call is retried, not "exactly one
non-retried call" as claimed. -/
theorem c3_fallback_counterexample :
    complete envC3 routerC3 .general none =
      (.ok ⟨"ok", "openai", true⟩, [("claude", 3), ("openai", 2)]) ∧
    ("openai", 2) ∈ (complete envC3 routerC3 .general none).2 ∧ (2 : Nat) ≠ 1 := by
  refine ⟨by decide, by decide, by decide⟩

/-- C3 witness: the A/B scenario of the spec (claude preferred and failing,
openai succeeding) instantiating the amended fallback theorem: the result is
the first success in fallback order with `fallback = true`, and the walked
openai call used two raw attempts (between one and three). -/
theorem c3_fallback_walk_witness :
    (selectProvider routerC3 .general none = .ok "claude" ∧
      (callWithRetry envC3 "claude").1 = none) ∧
    ((complete envC3 routerC3 .general none).1 =
      (match (fallbackOrder.filter fun q =>
          !decide (q = "claude" ∨ q ∉ routerC3.available_providers)).find?
          (retryGood envC3) with
        | some p => .ok ⟨retryText envC3 p, p, true⟩
        | none => .error .allProvidersFailed) ∧
    ∀ pr ∈ (tryFallback envC3 routerC3.available_providers "claude").2,
      pr.1 ≠ "claude" ∧ pr.1 ∈ routerC3.available_providers ∧
        pr.1 ∈ fallbackOrder ∧
        pr.2 = (callWithRetry envC3 pr.1).2 ∧ 1 ≤ pr.2 ∧ pr.2 ≤ 3) := by
  have hnone : (callWithRetry envC3 "claude").1 = none := by decide
  refine ⟨⟨by decide, hnone⟩, ?_⟩
  exact c3_fallback_walk envC3 routerC3 .general none "claude" (by decide)
    (fun t h => by rw [hnone] at h; cases h)

/-! ## Redactor claim theorems: degenerate and concrete cases -/

/-- C8: a disabled engine returns the input unchanged with empty mappings and
empty entity counts, and an enabled engine returns the empty result on empty
input.  (`redact` is a total function of its inputs: there is no failing
path; unmatched input is left unredacted by construction.) -/
theorem c8_degenerate_inputs (ents : List String) (text : Str) :
    redact ⟨false, ents⟩ text = ⟨text, [], []⟩ ∧
    redact ⟨true, ents⟩ [] = ⟨[], [], []⟩ := by
  constructor <;> simp [redact]

/-- The C5 input `"Call 555-111-1111 or 555-222-2222"` with phone redaction
enabled. -/
def phoneCfg : RedactorConfig := ⟨true, ["PHONE_NUMBER"]⟩

def phoneText : Str := "Call 555-111-1111 or 555-222-2222".data

/-- C5 counterexample: the textually earlier phone number (offset 5) receives
`[PHONE_2]`, not `[PHONE_1]` — placeholder numbering follows the descending
replacement order, so it is right-to-left, contradicting the claimed
left-to-right numbering. -/
theorem c5_numbering_counterexample :
    ((redact phoneCfg phoneText).mappings.map fun m => (m.start, m.placeholder)) =
      [(5, "[PHONE_2]".data), (21, "[PHONE_1]".data)] ∧
    "[PHONE_2]".data ≠ "[PHONE_1]".data := by
  refine ⟨by decide, by decide⟩

/-- C5 (amended): on `"Call 555-111-1111 or 555-222-2222"` with phone
redaction enabled, `redact` produces two distinct placeholders numbered
right-to-left — the textually later number becomes `[PHONE_1]` and the
earlier one `[PHONE_2]` — while the mapping list itself is presented in
left-to-right text order. -/
theorem c5_numbering_right_to_left :
    redact phoneCfg phoneText =
      ⟨"Call [PHONE_2] or [PHONE_1]".data,
       [⟨"555-111-1111".data, "[PHONE_2]".data, "PHONE_NUMBER", 5, 17⟩,
        ⟨"555-222-2222".data, "[PHONE_1]".data, "PHONE_NUMBER", 21, 33⟩],
       [("PHONE_NUMBER", 2)]⟩ ∧
    "[PHONE_2]".data ≠ "[PHONE_1]".data := by
  refine ⟨by decide, by decide⟩

/-! ## Metatheory of the regex engine -/

theorem starEndsF_ge {endsA : Nat → List Nat} (hA : ∀ i e, e ∈ endsA i → i ≤ e) :
    ∀ fuel i e, e ∈ starEndsF endsA fuel i → i ≤ e := by
  intro fuel
  induction fuel with
  | zero => intro i e he; simp [starEndsF] at he; omega
  | succ n ih =>
      intro i e he
      simp only [starEndsF, List.mem_append, List.mem_flatMap, List.mem_filter,
        List.mem_singleton] at he
      rcases he with ⟨j, ⟨_, hij⟩, hje⟩ | rfl
      · have := ih j e hje
        have hij' : i < j := by simpa using hij
        omega
      · exact Nat.le_refl _

theorem ends_ge : ∀ (r : RE) (s : Str) (i e : Nat), e ∈ ends r s i → i ≤ e := by
  intro r
  induction r with
  | eps => intro s i e he; simp [ends] at he; omega
  | cls p =>
      intro s i e he
      simp only [ends] at he
      split at he
      · split at he
        · simp at he; omega
        · simp at he
      · simp at he
  | seq a b iha ihb =>
      intro s i e he
      simp only [ends, List.mem_flatMap] at he
      obtain ⟨j, hj, hje⟩ := he
      exact Nat.le_trans (iha s i j hj) (ihb s j e hje)
  | alt a b iha ihb =>
      intro s i e he
      simp only [ends, List.mem_append] at he
      rcases he with h | h
      exacts [iha s i e h, ihb s i e h]
  | opt a iha =>
      intro s i e he
      simp only [ends, List.mem_append, List.mem_singleton] at he
      rcases he with h | rfl
      exacts [iha s i e h, Nat.le_refl _]
  | star a iha =>
      intro s i e he
      exact starEndsF_ge (fun j f hf => iha s j f hf) _ i e he
  | wb =>
      intro s i e he
      simp only [ends] at he
      by_cases hb : boundary s i
      · rw [if_pos hb] at he; simp at he; omega
      · rw [if_neg hb] at he; simp at he

theorem starEndsF_le {endsA : Nat → List Nat} {len : Nat}
    (hA : ∀ i, i ≤ len → ∀ e ∈ endsA i, e ≤ len) :
    ∀ fuel i, i ≤ len → ∀ e, e ∈ starEndsF endsA fuel i → e ≤ len := by
  intro fuel
  induction fuel with
  | zero => intro i hi e he; simp [starEndsF] at he; omega
  | succ n ih =>
      intro i hi e he
      simp only [starEndsF, List.mem_append, List.mem_flatMap, List.mem_filter,
        List.mem_singleton] at he
      rcases he with ⟨j, ⟨hj, _⟩, hje⟩ | rfl
      · exact ih j (hA i hi j hj) e hje
      · exact hi

theorem ends_le : ∀ (r : RE) (s : Str) (i : Nat), i ≤ s.length →
    ∀ e ∈ ends r s i, e ≤ s.length := by
  intro r
  induction r with
  | eps => intro s i hi e he; simp [ends] at he; omega
  | cls p =>
      intro s i hi e he
      simp only [ends] at he
      split at he
      next c hc =>
        have hlt : i < s.length := by
          by_contra hge
          rw [List.getElem?_eq_none (by omega)] at hc
          cases hc
        split at he
        · simp at he; omega
        · simp at he
      next hc => simp at he
  | seq a b iha ihb =>
      intro s i hi e he
      simp only [ends, List.mem_flatMap] at he
      obtain ⟨j, hj, hje⟩ := he
      exact ihb s j (iha s i hi j hj) e hje
  | alt a b iha ihb =>
      intro s i hi e he
      simp only [ends, List.mem_append] at he
      rcases he with h | h
      exacts [iha s i hi e h, ihb s i hi e h]
  | opt a iha =>
      intro s i hi e he
      simp only [ends, List.mem_append, List.mem_singleton] at he
      rcases he with h | rfl
      exacts [iha s i hi e h, hi]
  | star a iha =>
      intro s i hi e he
      exact starEndsF_le (fun j hj f hf => iha s j hj f hf) _ i hi e he
  | wb =>
      intro s i hi e he
      simp only [ends] at he
      by_cases hb : boundary s i
      · rw [if_pos hb] at he; simp at he; omega
      · rw [if_neg hb] at he; simp at he

/-- Does every match of the pattern consume at least one character?  (True
for every pattern the redactor compiles.) -/
def consumesRE : RE → Bool
  | .eps => false
  | .cls _ => true
  | .seq a b => consumesRE a || consumesRE b
  | .alt a b => consumesRE a && consumesRE b
  | .opt _ => false
  | .star _ => false
  | .wb => false

theorem ends_consumes : ∀ (r : RE), consumesRE r = true →
    ∀ (s : Str) (i e : Nat), e ∈ ends r s i → i < e := by
  intro r
  induction r with
  | eps => intro h; cases h
  | cls p =>
      intro _ s i e he
      simp only [ends] at he
      split at he
      · split at he
        · simp at he; omega
        · simp at he
      · simp at he
  | seq a b iha ihb =>
      intro hc s i e he
      simp only [ends, List.mem_flatMap] at he
      obtain ⟨j, hj, hje⟩ := he
      rcases Bool.or_eq_true_iff.mp (by simpa [consumesRE] using hc) with h | h
      · exact Nat.lt_of_lt_of_le (iha h s i j hj) (ends_ge b s j e hje)
      · exact Nat.lt_of_le_of_lt (ends_ge a s i j hj) (ihb h s j e hje)
  | alt a b iha ihb =>
      intro hc s i e he
      have hc' := Bool.and_eq_true_iff.mp (by simpa [consumesRE] using hc)
      simp only [ends, List.mem_append] at he
      rcases he with h | h
      exacts [iha hc'.1 s i e h, ihb hc'.2 s i e h]
  | opt a _ => intro h; cases h
  | star a _ => intro h; cases h
  | wb => intro h; cases h

theorem matchEndAt_mem {r : RE} {s : Str} {i e : Nat}
    (h : matchEndAt r s i = some e) : e ∈ ends r s i := by
  unfold matchEndAt at h
  cases hl : ends r s i with
  | nil => rw [hl] at h; cases h
  | cons a l =>
      rw [hl] at h
      simp only [List.head?_cons, Option.some.injEq] at h
      rw [← h]
      exact List.mem_cons_self _ _

theorem firstMatchFromAux_some {r : RE} {s : Str} :
    ∀ {fuel j : Nat} {p : Nat × Nat}, firstMatchFromAux r s j fuel = some p →
      p.1 ≤ s.length ∧ matchEndAt r s p.1 = some p.2 := by
  intro fuel
  induction fuel with
  | zero => intro j p h; cases h
  | succ n ih =>
      intro j p h
      rw [firstMatchFromAux] at h
      by_cases hj : j ≤ s.length
      · rw [if_pos hj] at h
        cases hm : matchEndAt r s j with
        | none => rw [hm] at h; exact ih h
        | some e =>
            rw [hm] at h
            cases h
            exact ⟨hj, hm⟩
      · rw [if_neg hj] at h; cases h

theorem finditerFromAux_mem {r : RE} {s : Str} :
    ∀ {fuel i : Nat} {pr : Nat × Nat}, pr ∈ finditerFromAux r s i fuel →
      pr.1 ≤ s.length ∧ matchEndAt r s pr.1 = some pr.2 := by
  intro fuel
  induction fuel with
  | zero => intro i pr h; simp [finditerFromAux] at h
  | succ n ih =>
      intro i pr h
      rw [finditerFromAux] at h
      cases hm : firstMatchFrom r s i with
      | none => rw [hm] at h; simp at h
      | some q =>
          obtain ⟨j, e⟩ := q
          rw [hm] at h
          rcases List.mem_cons.mp h with rfl | h'
          · exact firstMatchFromAux_some hm
          · exact ih h'

/-- Every `finditer` match has in-range offsets; it is non-empty whenever the
pattern is consuming. -/
theorem finditer_mem_spec {r : RE} {s : Str} {pr : Nat × Nat}
    (h : pr ∈ finditer r s) :
    pr.1 ≤ pr.2 ∧ pr.2 ≤ s.length ∧ (consumesRE r = true → pr.1 < pr.2) := by
  have h1 := finditerFromAux_mem h
  have hm := matchEndAt_mem h1.2
  exact ⟨ends_ge r s pr.1 pr.2 hm, ends_le r s pr.1 h1.1 pr.2 hm,
    fun hc => ends_consumes r hc s pr.1 pr.2 hm⟩

/-! ## Properties of the detection phase -/

/-- The entity-type labels that can appear on a candidate match. -/
def typeNames : List String :=
  ["US_SSN", "PHONE_NUMBER", "EMAIL_ADDRESS", "CREDIT_CARD", "IP_ADDRESS",
   "DATE_TIME", "CLAIM_NUMBER", "POLICY_NUMBER", "US_DRIVER_LICENSE",
   "MEDICAL_LICENSE", "LOCATION", "PERSON"]

theorem patterns_consume : ∀ pat ∈ patterns, consumesRE pat.2 = true := by decide

theorem patterns_types : ∀ pat ∈ patterns, pat.1 ∈ typeNames := by decide

theorem twoCapsStep_sub {text : Str} {names : List (Nat × Nat × String)}
    {pr : Nat × Nat} {x : Nat × Nat × String} (h : x ∈ twoCapsStep text names pr) :
    x ∈ names ∨ x = (pr.1, pr.2, "PERSON") := by
  unfold twoCapsStep at h
  split at h
  · exact Or.inl h
  · split at h
    · exact Or.inl h
    · rcases List.mem_append.mp h with h' | h'
      · exact Or.inl h'
      · exact Or.inr (by simpa using h')

theorem foldl_twoCapsStep_sub {text : Str} :
    ∀ (l : List (Nat × Nat)) (names : List (Nat × Nat × String))
      (x : Nat × Nat × String), x ∈ l.foldl (twoCapsStep text) names →
      x ∈ names ∨ ∃ pr ∈ l, x = (pr.1, pr.2, "PERSON") := by
  intro l
  induction l with
  | nil => intro names x h; exact Or.inl h
  | cons pr rest ih =>
      intro names x h
      rcases ih (twoCapsStep text names pr) x h with h' | ⟨q, hq, rfl⟩
      · rcases twoCapsStep_sub h' with h'' | rfl
        · exact Or.inl h''
        · exact Or.inr ⟨pr, List.mem_cons_self _ _, rfl⟩
      · exact Or.inr ⟨q, List.mem_cons_of_mem _ hq, rfl⟩

theorem detectNames_mem {text : Str} {x : Nat × Nat × String}
    (h : x ∈ detectNames text) :
    x.2.2 = "PERSON" ∧ x.1 < x.2.1 ∧ x.2.1 ≤ text.length := by
  unfold detectNames at h
  rcases foldl_twoCapsStep_sub _ _ x h with h' | ⟨pr, hpr, rfl⟩
  · obtain ⟨pr, hpr, rfl⟩ := List.mem_map.mp h'
    have hs := finditer_mem_spec hpr
    exact ⟨rfl, hs.2.2 (by decide), hs.2.1⟩
  · have hs := finditer_mem_spec hpr
    exact ⟨rfl, hs.2.2 (by decide), hs.2.1⟩

theorem detectAll_mem {cfg : RedactorConfig} {text : Str} {m : PIIEntityMatch}
    (h : m ∈ detectAll cfg text) :
    m.original = strSlice text m.start m.«end» ∧ m.start < m.«end» ∧
      m.«end» ≤ text.length ∧ m.entity_type ∈ typeNames := by
  unfold detectAll at h
  rcases List.mem_append.mp h with h' | h'
  · unfold regexMatches at h'
    obtain ⟨pat, hpat, hm⟩ := List.mem_flatMap.mp h'
    split at hm
    · obtain ⟨pr, hpr, rfl⟩ := List.mem_map.mp hm
      have hs := finditer_mem_spec hpr
      exact ⟨rfl, hs.2.2 (patterns_consume pat hpat), hs.2.1, patterns_types pat hpat⟩
    · simp at hm
  · split at h'
    · obtain ⟨pr, hpr, rfl⟩ := List.mem_map.mp h'
      have hn := detectNames_mem hpr
      refine ⟨rfl, hn.2.1, hn.2.2, ?_⟩
      show pr.2.2 ∈ typeNames
      rw [hn.1]; decide
    · simp at h'

/-! ## Properties of the descending sort -/

theorem insertByStartDesc_perm (m : PIIEntityMatch) :
    ∀ l : List PIIEntityMatch, (insertByStartDesc m l).Perm (m :: l) := by
  intro l
  induction l with
  | nil => simp [insertByStartDesc]
  | cons y ys ih =>
      unfold insertByStartDesc
      by_cases hc : y.start ≤ m.start
      · rw [if_pos hc]
      · rw [if_neg hc]
        exact ((ih.cons y).trans (List.Perm.swap m y ys))

theorem sortByStartDesc_perm :
    ∀ l : List PIIEntityMatch, (sortByStartDesc l).Perm l := by
  intro l
  induction l with
  | nil => simp [sortByStartDesc]
  | cons m ms ih =>
      unfold sortByStartDesc
      exact (insertByStartDesc_perm m (sortByStartDesc ms)).trans (ih.cons m)

theorem insertByStartDesc_pairwise (m : PIIEntityMatch) :
    ∀ {l : List PIIEntityMatch},
      l.Pairwise (fun a b => b.start ≤ a.start) →
      (insertByStartDesc m l).Pairwise (fun a b => b.start ≤ a.start) := by
  intro l
  induction l with
  | nil => intro _; simp [insertByStartDesc]
  | cons y ys ih =>
      intro h
      have hy := List.pairwise_cons.mp h
      unfold insertByStartDesc
      by_cases hc : y.start ≤ m.start
      · rw [if_pos hc]
        refine List.pairwise_cons.mpr ⟨?_, h⟩
        intro z hz
        rcases List.mem_cons.mp hz with rfl | hz'
        · exact hc
        · exact Nat.le_trans (hy.1 z hz') hc
      · rw [if_neg hc]
        refine List.pairwise_cons.mpr ⟨?_, ih hy.2⟩
        intro z hz
        have hz' := (insertByStartDesc_perm m ys).mem_iff.mp hz
        rcases List.mem_cons.mp hz' with rfl | hz''
        · omega
        · exact hy.1 z hz''

theorem sortByStartDesc_pairwise :
    ∀ l : List PIIEntityMatch,
      (sortByStartDesc l).Pairwise (fun a b => b.start ≤ a.start) := by
  intro l
  induction l with
  | nil => simp [sortByStartDesc]
  | cons m ms ih => exact insertByStartDesc_pairwise m ih

/-! ## Properties of the greedy overlap filter -/

/-- Disjointness of the half-open spans of two matches. -/
def MDisjoint (a b : PIIEntityMatch) : Prop :=
  a.«end» ≤ b.start ∨ b.«end» ≤ a.start

theorem filterOverlapsAux_sub :
    ∀ (l acc : List PIIEntityMatch),
      ∃ l', l'.Sublist l ∧ filterOverlapsAux acc l = acc ++ l' := by
  intro l
  induction l with
  | nil => intro acc; exact ⟨[], List.Sublist.refl _, by simp [filterOverlapsAux]⟩
  | cons m rest ih =>
      intro acc
      unfold filterOverlapsAux
      by_cases hc : acc.any (fun f => overlapsB m f)
      · rw [if_pos hc]
        obtain ⟨l', hsub, heq⟩ := ih acc
        exact ⟨l', hsub.cons m, heq⟩
      · rw [if_neg hc]
        obtain ⟨l', hsub, heq⟩ := ih (acc ++ [m])
        exact ⟨m :: l', hsub.cons₂ m, by rw [heq, List.append_assoc]; rfl⟩

theorem filterOverlaps_sublist (l : List PIIEntityMatch) :
    (filterOverlaps l).Sublist l := by
  obtain ⟨l', hsub, heq⟩ := filterOverlapsAux_sub l []
  unfold filterOverlaps
  rw [heq]
  simpa using hsub

theorem filterOverlapsAux_pairwise :
    ∀ (l acc : List PIIEntityMatch), acc.Pairwise MDisjoint →
      (filterOverlapsAux acc l).Pairwise MDisjoint := by
  intro l
  induction l with
  | nil => intro acc h; simpa [filterOverlapsAux] using h
  | cons m rest ih =>
      intro acc h
      unfold filterOverlapsAux
      by_cases hc : acc.any (fun f => overlapsB m f)
      · rw [if_pos hc]; exact ih acc h
      · rw [if_neg hc]
        refine ih (acc ++ [m]) ?_
        rw [List.pairwise_append]
        refine ⟨h, List.pairwise_singleton _ _, ?_⟩
        intro a ha b hb
        rw [List.mem_singleton.mp hb]
        have hov : overlapsB m a = false := by
          by_contra hov'
          exact hc (List.any_eq_true.mpr ⟨a, ha, by simpa using hov'⟩)
        unfold overlapsB at hov
        have hov2 : a.start < m.«end» → a.«end» ≤ m.start := by simpa using hov
        by_cases hcase : m.«end» ≤ a.start
        · exact Or.inr hcase
        · exact Or.inl (hov2 (by omega))

theorem filterOverlaps_pairwise (l : List PIIEntityMatch) :
    (filterOverlaps l).Pairwise MDisjoint :=
  filterOverlapsAux_pairwise l [] (List.Pairwise.nil)

/-- The filtered match list of one enabled `redact` run. -/
def filteredMatches (cfg : RedactorConfig) (text : Str) : List PIIEntityMatch :=
  filterOverlaps (sortByStartDesc (detectAll cfg text))

theorem filteredMatches_mem {cfg : RedactorConfig} {text : Str}
    {m : PIIEntityMatch} (h : m ∈ filteredMatches cfg text) :
    m ∈ detectAll cfg text :=
  (sortByStartDesc_perm _).mem_iff.mp
    ((filterOverlaps_sublist _).subset h)

/-- In process (descending) order, every later accepted match lies strictly
to the left of every earlier one. -/
theorem filteredMatches_desc (cfg : RedactorConfig) (text : Str) :
    (filteredMatches cfg text).Pairwise (fun a b => b.«end» ≤ a.start) := by
  have hd : (filteredMatches cfg text).Pairwise (fun a b => b.start ≤ a.start) :=
    ((sortByStartDesc_pairwise (detectAll cfg text)).sublist (filterOverlaps_sublist _))
  have hdj : (filteredMatches cfg text).Pairwise MDisjoint :=
    filterOverlaps_pairwise _
  have hcomb := List.Pairwise.and hd hdj
  refine hcomb.imp_of_mem ?_
  intro a b ha hb hab
  have hsa := (detectAll_mem (filteredMatches_mem ha)).2.1
  have hsb := (detectAll_mem (filteredMatches_mem hb)).2.1
  rcases hab.2 with h' | h'
  · omega
  · exact h'

/-! ## Placeholder algebra -/

theorem natDigitsAux_congr :
    ∀ (f1 : Nat) (n f2 : Nat), n < f1 → n < f2 →
      natDigitsAux n f1 = natDigitsAux n f2 := by
  intro f1
  induction f1 with
  | zero => intro n f2 h1 _; omega
  | succ f1' ih =>
      intro n f2 h1 h2
      cases f2 with
      | zero => omega
      | succ f2' =>
          show natDigitsAux n (f1' + 1) = natDigitsAux n (f2' + 1)
          rw [natDigitsAux, natDigitsAux]
          by_cases hn : n < 10
          · rw [if_pos hn, if_pos hn]
          · rw [if_neg hn, if_neg hn, ih (n / 10) f2' (by omega) (by omega)]

theorem natDigits_unfold (n : Nat) :
    natDigits n =
      if n < 10 then [digitChar n]
      else natDigits (n / 10) ++ [digitChar (n % 10)] := by
  show natDigitsAux n (n + 1) = _
  rw [natDigitsAux]
  by_cases hn : n < 10
  · rw [if_pos hn, if_pos hn]
  · rw [if_neg hn, if_neg hn,
      natDigitsAux_congr n (n / 10) (n / 10 + 1) (by omega) (by omega)]
    rfl

def digitVal (c : Char) : Nat := c.toNat - 48

def digitsVal (l : Str) : Nat := l.foldl (fun a c => 10 * a + digitVal c) 0

theorem digitVal_digitChar : ∀ k, k < 10 → digitVal (digitChar k) = k := by decide

theorem digitsVal_natDigits : ∀ n, digitsVal (natDigits n) = n := by
  intro n
  induction n using Nat.strong_induction_on with
  | _ n ih =>
      rw [natDigits_unfold]
      by_cases hn : n < 10
      · rw [if_pos hn]
        show 10 * 0 + digitVal (digitChar n) = n
        rw [digitVal_digitChar n hn]
        omega
      · rw [if_neg hn]
        show List.foldl _ 0 (natDigits (n / 10) ++ [digitChar (n % 10)]) = n
        rw [List.foldl_append]
        show 10 * digitsVal (natDigits (n / 10)) + digitVal (digitChar (n % 10)) = n
        rw [ih (n / 10) (by omega), digitVal_digitChar (n % 10) (by omega)]
        omega

theorem natDigits_inj {a b : Nat} (h : natDigits a = natDigits b) : a = b := by
  have := digitsVal_natDigits a
  rw [h, digitsVal_natDigits b] at this
  omega

theorem digitChar_digit : ∀ k, isDigitChar (digitChar k) = true := by
  intro k
  unfold digitChar
  split <;> rfl

theorem natDigits_digits : ∀ n, ∀ c ∈ natDigits n, isDigitChar c = true := by
  intro n
  induction n using Nat.strong_induction_on with
  | _ n ih =>
      intro c hc
      rw [natDigits_unfold] at hc
      by_cases hn : n < 10
      · rw [if_pos hn] at hc
        rw [List.mem_singleton.mp hc]
        exact digitChar_digit n
      · rw [if_neg hn] at hc
        rcases List.mem_append.mp hc with h | h
        · exact ih (n / 10) (by omega) c h
        · rw [List.mem_singleton.mp h]
          exact digitChar_digit (n % 10)

theorem underscore_split :
    ∀ (p1 : Str) (p2 d1 d2 : Str), (∀ c ∈ d1, isDigitChar c = true) →
      (∀ c ∈ d2, isDigitChar c = true) →
      p1 ++ '_' :: d1 = p2 ++ '_' :: d2 → p1 = p2 ∧ d1 = d2 := by
  intro p1
  induction p1 with
  | nil =>
      intro p2 d1 d2 h1 h2 heq
      cases p2 with
      | nil => simpa using heq
      | cons c r =>
          rw [List.nil_append, List.cons_append] at heq
          obtain ⟨hc, htl⟩ := List.cons.injEq _ _ _ _ ▸ heq
          exfalso
          have : ('_' : Char) ∈ d1 := by
            rw [htl]
            exact List.mem_append_right _ (List.mem_cons_self _ _)
          have := h1 _ this
          simp [isDigitChar] at this
  | cons a r1 ih =>
      intro p2 d1 d2 h1 h2 heq
      cases p2 with
      | nil =>
          rw [List.nil_append, List.cons_append] at heq
          obtain ⟨hc, htl⟩ := List.cons.injEq _ _ _ _ ▸ heq
          exfalso
          have : ('_' : Char) ∈ d2 := by
            rw [← htl]
            exact List.mem_append_right _ (List.mem_cons_self _ _)
          have := h2 _ this
          simp [isDigitChar] at this
      | cons b r2 =>
          rw [List.cons_append, List.cons_append] at heq
          obtain ⟨hc, htl⟩ := List.cons.injEq _ _ _ _ ▸ heq
          obtain ⟨he1, he2⟩ := ih r2 d1 d2 h1 h2 htl
          exact ⟨by rw [hc, he1], he2⟩

theorem typePrefix_inj :
    ∀ t1 ∈ typeNames, ∀ t2 ∈ typeNames,
      (typePrefix t1).data = (typePrefix t2).data → t1 = t2 := by decide

theorem typePrefix_chars :
    ∀ t ∈ typeNames, ∀ c ∈ (typePrefix t).data, c ≠ '[' ∧ c ≠ ']' ∧
      isDigitChar c = false := by decide

/-- The shape every generated placeholder has: an opening bracket, a body
free of brackets, a closing bracket. -/
def IsBracketed (p : Str) : Prop :=
  ∃ w, p = '[' :: (w ++ [']']) ∧ ∀ c ∈ w, c ≠ '[' ∧ c ≠ ']'

theorem mkPlaceholder_shape (ty : String) (n : Nat) :
    mkPlaceholder ty n =
      '[' :: (((typePrefix ty).data ++ '_' :: natDigits n) ++ [']']) := by
  unfold mkPlaceholder
  simp

theorem mkPlaceholder_bracketed {ty : String} (hty : ty ∈ typeNames) (n : Nat) :
    IsBracketed (mkPlaceholder ty n) := by
  refine ⟨(typePrefix ty).data ++ '_' :: natDigits n, mkPlaceholder_shape ty n, ?_⟩
  intro c hc
  rcases List.mem_append.mp hc with h | h
  · exact ⟨(typePrefix_chars ty hty c h).1, (typePrefix_chars ty hty c h).2.1⟩
  · rcases List.mem_cons.mp h with rfl | h'
    · exact ⟨by decide, by decide⟩
    · have hd := natDigits_digits n c h'
      constructor
      · intro hct; rw [hct] at hd; simp [isDigitChar] at hd
      · intro hct; rw [hct] at hd; simp [isDigitChar] at hd

theorem mkPlaceholder_inj {ty1 ty2 : String} {n1 n2 : Nat}
    (h1 : ty1 ∈ typeNames) (h2 : ty2 ∈ typeNames)
    (h : mkPlaceholder ty1 n1 = mkPlaceholder ty2 n2) : ty1 = ty2 ∧ n1 = n2 := by
  rw [mkPlaceholder_shape, mkPlaceholder_shape] at h
  obtain ⟨-, htl⟩ := List.cons.injEq _ _ _ _ ▸ h
  have hcancel := List.append_cancel_right htl
  obtain ⟨hp, hd⟩ := underscore_split _ _ _ _
    (natDigits_digits n1) (natDigits_digits n2) hcancel
  exact ⟨typePrefix_inj ty1 h1 ty2 h2 hp, natDigits_inj hd⟩

/-! ## Counter evolution -/

theorem counterGet_bump_self (ty : String) :
    ∀ c : List (String × Nat), counterGet (counterBump ty c) ty = counterGet c ty + 1 := by
  intro c
  induction c with
  | nil => simp [counterBump, counterGet]
  | cons kv rest ih =>
      obtain ⟨k, v⟩ := kv
      unfold counterBump
      by_cases hk : k = ty
      · rw [if_pos hk]
        show counterGet ((k, v + 1) :: rest) ty = _
        simp only [counterGet, if_pos hk]
      · rw [if_neg hk]
        show counterGet ((k, v) :: counterBump ty rest) ty = _
        simp only [counterGet, if_neg hk]
        exact ih

theorem counterGet_bump_other (ty ty' : String) (h : ty' ≠ ty) :
    ∀ c : List (String × Nat), counterGet (counterBump ty c) ty' = counterGet c ty' := by
  intro c
  induction c with
  | nil =>
      unfold counterBump
      simp only [counterGet, if_neg (fun hh : ty = ty' => h hh.symm)]
  | cons kv rest ih =>
      obtain ⟨k, v⟩ := kv
      unfold counterBump
      by_cases hk : k = ty
      · rw [if_pos hk]
        show counterGet ((k, v + 1) :: rest) ty' = _
        have hne : k ≠ ty' := fun hh => h (hh.symm.trans hk)
        simp only [counterGet, if_neg hne]
      · rw [if_neg hk]
        show counterGet ((k, v) :: counterBump ty rest) ty' = _
        by_cases hk' : k = ty'
        · simp only [counterGet, if_pos hk']
        · simp only [counterGet, if_neg hk']
          exact ih

theorem counterGet_bump_le (ty ty' : String) (c : List (String × Nat)) :
    counterGet c ty' ≤ counterGet (counterBump ty c) ty' := by
  by_cases h : ty' = ty
  · subst h; rw [counterGet_bump_self]; omega
  · rw [counterGet_bump_other ty ty' h]

/-! ## The replacement fold of `redact`, characterised -/

theorem getPlaceholder_fst (c : List (String × Nat)) (ty : String) :
    (getPlaceholder c ty).1 = mkPlaceholder ty (counterGet c ty + 1) := by
  show mkPlaceholder ty (counterGet (counterBump ty c) ty) = _
  rw [counterGet_bump_self]

theorem getPlaceholder_snd (c : List (String × Nat)) (ty : String) :
    (getPlaceholder c ty).2 = counterBump ty c := rfl

/-- The matches paired with the placeholders they receive, in process
(descending-start) order, starting from counter state `counters`. -/
def phSeq (counters : List (String × Nat)) :
    List PIIEntityMatch → List (PIIEntityMatch × Str)
  | [] => []
  | m :: rest =>
      (m, (getPlaceholder counters m.entity_type).1) ::
        phSeq (getPlaceholder counters m.entity_type).2 rest

/-- The `PIIMapping`s built from a placholder-paired match list. -/
def opsOf (l : List (PIIEntityMatch × Str)) : List PIIMapping :=
  l.map (fun mp => ⟨mp.1.original, mp.2, mp.1.entity_type, mp.1.start, mp.1.«end»⟩)

/-- Sequential splice of placeholders into the working text, exactly as the
loop's `redacted_text = redacted_text[:start] + placeholder +
redacted_text[end:]`. -/
def applyReplace (t : Str) (l : List PIIMapping) : Str :=
  l.foldl (fun cur mp => cur.take mp.start ++ mp.placeholder ++ cur.drop mp.«end») t

theorem foldl_redactStep_char :
    ∀ (l : List PIIEntityMatch) (st : RedactState),
      (l.foldl redactStep st).mappings = st.mappings ++ opsOf (phSeq st.counters l) ∧
      (l.foldl redactStep st).redacted_text =
        applyReplace st.redacted_text (opsOf (phSeq st.counters l)) := by
  intro l
  induction l with
  | nil => intro st; simp [phSeq, opsOf, applyReplace]
  | cons m rest ih =>
      intro st
      have hstep : List.foldl redactStep st (m :: rest) =
          List.foldl redactStep (redactStep st m) rest := rfl
      rw [hstep]
      obtain ⟨h1, h2⟩ := ih (redactStep st m)
      constructor
      · rw [h1]
        show (st.mappings ++ [_]) ++ _ = _
        rw [List.append_assoc]
        rfl
      · rw [h2]
        rfl

theorem phSeq_fst :
    ∀ (l : List PIIEntityMatch) (c : List (String × Nat)),
      (phSeq c l).map Prod.fst = l := by
  intro l
  induction l with
  | nil => intro c; rfl
  | cons m rest ih => intro c; simp [phSeq, ih]

theorem phSeq_mem_fst {l : List PIIEntityMatch} {c : List (String × Nat)}
    {mp : PIIEntityMatch × Str} (h : mp ∈ phSeq c l) : mp.1 ∈ l := by
  have : mp.1 ∈ (phSeq c l).map Prod.fst := List.mem_map_of_mem _ h
  rwa [phSeq_fst] at this

theorem phSeq_mem_ph :
    ∀ (l : List PIIEntityMatch) (c : List (String × Nat))
      (mp : PIIEntityMatch × Str), mp ∈ phSeq c l →
      ∃ n, mp.2 = mkPlaceholder mp.1.entity_type n ∧
        counterGet c mp.1.entity_type < n := by
  intro l
  induction l with
  | nil => intro c mp h; simp [phSeq] at h
  | cons m rest ih =>
      intro c mp h
      rcases List.mem_cons.mp h with rfl | h'
      · refine ⟨counterGet c m.entity_type + 1, ?_, ?_⟩
        · show (getPlaceholder c m.entity_type).1 = mkPlaceholder m.entity_type _
          exact getPlaceholder_fst c m.entity_type
        · show counterGet c m.entity_type < counterGet c m.entity_type + 1
          omega
      · obtain ⟨n, hn, hlt⟩ := ih _ mp h'
        refine ⟨n, hn, ?_⟩
        rw [getPlaceholder_snd] at hlt
        have := counterGet_bump_le m.entity_type mp.1.entity_type c
        omega

theorem phSeq_nodup :
    ∀ (l : List PIIEntityMatch) (c : List (String × Nat)),
      (∀ m ∈ l, m.entity_type ∈ typeNames) →
      ((phSeq c l).map Prod.snd).Nodup := by
  intro l
  induction l with
  | nil => intro c _; simp [phSeq]
  | cons m rest ih =>
      intro c hty
      show (((m, (getPlaceholder c m.entity_type).1) ::
        phSeq (getPlaceholder c m.entity_type).2 rest).map Prod.snd).Nodup
      rw [List.map_cons, List.nodup_cons]
      constructor
      · intro hmem
        obtain ⟨mp, hmp, heq⟩ := List.mem_map.mp hmem
        obtain ⟨n, hn, hlt⟩ := phSeq_mem_ph rest _ mp hmp
        have heq' : mp.2 = (getPlaceholder c m.entity_type).1 := heq
        rw [getPlaceholder_fst, hn] at heq'
        have hty1 : mp.1.entity_type ∈ typeNames :=
          hty _ (List.mem_cons_of_mem _ (phSeq_mem_fst hmp))
        have hty2 : m.entity_type ∈ typeNames := hty _ (List.mem_cons_self _ _)
        obtain ⟨hteq, hneq⟩ := mkPlaceholder_inj hty1 hty2 heq'
        rw [getPlaceholder_snd, hteq] at hlt
        rw [counterGet_bump_self] at hlt
        omega
      · exact ih _ (fun m' hm' => hty _ (List.mem_cons_of_mem _ hm'))

/-! ## The mappings and redacted text of one enabled run -/

/-- The process-order mapping list of one enabled `redact` run (the result's
`mappings` is its reverse). -/
def procMappings (cfg : RedactorConfig) (text : Str) : List PIIMapping :=
  opsOf (phSeq [] (filteredMatches cfg text))

theorem redact_char (cfg : RedactorConfig) (text : Str)
    (hen : cfg.enabled = true) (hne : text ≠ []) :
    (redact cfg text).mappings = (procMappings cfg text).reverse ∧
    (redact cfg text).redacted_text = applyReplace text (procMappings cfg text) ∧
    (redact cfg text).entities_found =
      (filteredMatches cfg text).foldl
        (fun ef m => counterBump m.entity_type ef) [] := by
  have hchar := foldl_redactStep_char (filteredMatches cfg text) ⟨[], [], [], text⟩
  have hef : ∀ (l : List PIIEntityMatch) (st : RedactState),
      (l.foldl redactStep st).entities_found =
        l.foldl (fun ef m => counterBump m.entity_type ef) st.entities_found := by
    intro l
    induction l with
    | nil => intro st; rfl
    | cons m rest ih => intro st; exact ih (redactStep st m)
  unfold redact
  rw [hen]
  simp only [Bool.not_true, Bool.false_eq_true, if_false]
  rw [if_neg (by simpa using hne)]
  refine ⟨?_, ?_, ?_⟩
  · show (List.foldl redactStep ⟨[], [], [], text⟩ (filteredMatches cfg text)).mappings.reverse = _
    rw [hchar.1]
    rfl
  · show (List.foldl redactStep ⟨[], [], [], text⟩ (filteredMatches cfg text)).redacted_text = _
    exact hchar.2
  · exact hef _ _

theorem procMappings_mem {cfg : RedactorConfig} {text : Str} {mp : PIIMapping}
    (h : mp ∈ procMappings cfg text) :
    ∃ m ∈ filteredMatches cfg text,
      mp.original = m.original ∧ mp.entity_type = m.entity_type ∧
      mp.start = m.start ∧ mp.«end» = m.«end» ∧
      ∃ n, mp.placeholder = mkPlaceholder m.entity_type n := by
  obtain ⟨pr, hpr, rfl⟩ := List.mem_map.mp h
  obtain ⟨n, hn, -⟩ := phSeq_mem_ph _ _ _ hpr
  exact ⟨pr.1, phSeq_mem_fst hpr, rfl, rfl, rfl, rfl, n, hn⟩

theorem procMappings_ph_nodup (cfg : RedactorConfig) (text : Str) :
    ((procMappings cfg text).map (fun mp => mp.placeholder)).Nodup := by
  have h := phSeq_nodup (filteredMatches cfg text) []
    (fun m hm => (detectAll_mem (filteredMatches_mem hm)).2.2.2)
  unfold procMappings opsOf
  rw [List.map_map]
  exact h

theorem redact_mappings_cases (cfg : RedactorConfig) (text : Str) :
    (redact cfg text).mappings = [] ∨
    (cfg.enabled = true ∧ text ≠ [] ∧
      (redact cfg text).mappings = (procMappings cfg text).reverse) := by
  by_cases hen : cfg.enabled = true
  · by_cases hne : text = []
    · subst hne
      left
      unfold redact
      rw [hen]
      simp
  -- nonempty enabled case
    · exact Or.inr ⟨hen, hne, (redact_char cfg text hen hne).1⟩
  · left
    unfold redact
    have : cfg.enabled = false := by simpa using hen
    rw [this]
    simp

/-- C9: every retained mapping faithfully locates the span it replaced in the
pre-redaction text: its offsets are in range and `text[start:end]` is exactly
its `original`. -/
theorem c9_mapping_offsets (cfg : RedactorConfig) (text : Str)
    (mp : PIIMapping) (h : mp ∈ (redact cfg text).mappings) :
    mp.original = strSlice text mp.start mp.«end» ∧
    mp.start < mp.«end» ∧ mp.«end» ≤ text.length := by
  rcases redact_mappings_cases cfg text with hnil | ⟨-, -, heq⟩
  · rw [hnil] at h; cases h
  · rw [heq, List.mem_reverse] at h
    obtain ⟨m, hm, ho, hty, hs, he, -⟩ := procMappings_mem h
    have hd := detectAll_mem (filteredMatches_mem hm)
    rw [ho, hs, he]
    exact ⟨hd.1, hd.2.1, hd.2.2.1⟩

/-- C9 witness: the single SSN mapping of `"SSN is 123-45-6789"`. -/
theorem c9_mapping_offsets_witness :
    ((⟨"123-45-6789".data, "[SSN_1]".data, "US_SSN", 7, 18⟩ : PIIMapping) ∈
      (redact ⟨true, ["US_SSN"]⟩ "SSN is 123-45-6789".data).mappings) ∧
    ("123-45-6789".data =
        strSlice "SSN is 123-45-6789".data 7 18 ∧
      (7 : Nat) < 18 ∧ (18 : Nat) ≤ "SSN is 123-45-6789".data.length) := by
  exact ⟨by decide,
    c9_mapping_offsets ⟨true, ["US_SSN"]⟩ "SSN is 123-45-6789".data
      ⟨"123-45-6789".data, "[SSN_1]".data, "US_SSN", 7, 18⟩ (by decide)⟩

/-- C6: the accepted span intervals `[start, end)` of the mappings of any
`RedactionResult` are pairwise disjoint. -/
theorem c6_mappings_disjoint (cfg : RedactorConfig) (text : Str) :
    (redact cfg text).mappings.Pairwise
      (fun a b => a.«end» ≤ b.start ∨ b.«end» ≤ a.start) := by
  rcases redact_mappings_cases cfg text with hnil | ⟨-, -, heq⟩
  · rw [hnil]; exact List.Pairwise.nil
  · rw [heq, List.pairwise_reverse]
    have hdesc := filteredMatches_desc cfg text
    rw [← phSeq_fst (filteredMatches cfg text) []] at hdesc
    have hdesc' := List.pairwise_map.mp hdesc
    unfold procMappings opsOf
    rw [List.pairwise_map]
    refine hdesc'.imp fun {a b} hab => ?_
    exact Or.inl hab

/-- C7: counters are per-call (the loop starts from the empty counter state),
and all placeholders generated within one `redact()` call are pairwise
distinct strings. -/
theorem c7_placeholders_distinct (cfg : RedactorConfig) (text : Str) :
    ((redact cfg text).mappings.map (fun mp => mp.placeholder)).Nodup := by
  rcases redact_mappings_cases cfg text with hnil | ⟨-, -, heq⟩
  · rw [hnil]; exact List.nodup_nil
  · rw [heq, List.map_reverse, List.nodup_reverse]
    exact procMappings_ph_nodup cfg text

theorem patterns_finditer_nil : ∀ pat ∈ patterns, finditer pat.2 ([] : Str) = [] := by
  decide

theorem regexMatches_nil (cfg : RedactorConfig) : regexMatches cfg [] = [] := by
  unfold regexMatches
  rw [List.flatMap_eq_nil_iff]
  intro pat hpat
  split
  · rw [patterns_finditer_nil pat hpat]; rfl
  · rfl

theorem detectAll_nil (cfg : RedactorConfig) : detectAll cfg [] = [] := by
  unfold detectAll
  rw [regexMatches_nil]
  have hdn : detectNames ([] : Str) = [] := by decide
  split
  · rw [hdn]; rfl
  · rfl

/-- Membership of every filtered match in the result's mappings. -/
theorem filtered_in_mappings {cfg : RedactorConfig} {text : Str}
    (hen : cfg.enabled = true) {m : PIIEntityMatch}
    (hm : m ∈ filteredMatches cfg text) :
    ∃ mp ∈ (redact cfg text).mappings,
      mp.start = m.start ∧ mp.«end» = m.«end» ∧
      mp.entity_type = m.entity_type ∧ mp.original = m.original := by
  have hne : text ≠ [] := by
    intro hnil
    subst hnil
    rw [filteredMatches, detectAll_nil] at hm
    cases hm
  rw [(redact_char cfg text hen hne).1]
  have hm' : m ∈ (phSeq [] (filteredMatches cfg text)).map Prod.fst := by
    rw [phSeq_fst]; exact hm
  obtain ⟨pr, hpr, hfst⟩ := List.mem_map.mp hm'
  refine ⟨⟨pr.1.original, pr.2, pr.1.entity_type, pr.1.start, pr.1.«end»⟩, ?_, ?_⟩
  · rw [List.mem_reverse]
    exact List.mem_map_of_mem _ hpr
  · rw [hfst]
    exact ⟨rfl, rfl, rfl, rfl⟩

/-- C2: the claim-number and policy-number detectors run on every enabled
`redact()` call regardless of the configured entity set — every such
`finditer` match is collected as a candidate — and every accepted candidate
is replaced (appears among the result's mappings). -/
theorem c2_claim_policy_always (ents : List String) (text : Str) :
    (∀ pr ∈ finditer claimNumRE text,
      (⟨pr.1, pr.2, "CLAIM_NUMBER", strSlice text pr.1 pr.2⟩ : PIIEntityMatch) ∈
        detectAll ⟨true, ents⟩ text) ∧
    (∀ pr ∈ finditer policyNumRE text,
      (⟨pr.1, pr.2, "POLICY_NUMBER", strSlice text pr.1 pr.2⟩ : PIIEntityMatch) ∈
        detectAll ⟨true, ents⟩ text) ∧
    (∀ m ∈ filteredMatches ⟨true, ents⟩ text,
      ∃ mp ∈ (redact ⟨true, ents⟩ text).mappings,
        mp.start = m.start ∧ mp.«end» = m.«end» ∧
        mp.entity_type = m.entity_type ∧ mp.original = m.original) := by
  refine ⟨?_, ?_, ?_⟩
  · intro pr hpr
    unfold detectAll
    refine List.mem_append_left _ ?_
    unfold regexMatches
    rw [List.mem_flatMap]
    refine ⟨("CLAIM_NUMBER", claimNumRE), ?_, ?_⟩
    · unfold patterns
      exact List.mem_cons_of_mem _ (List.mem_cons_of_mem _ (List.mem_cons_of_mem _
        (List.mem_cons_of_mem _ (List.mem_cons_of_mem _ (List.mem_cons_of_mem _
          (List.mem_cons_self _ _))))))
    rw [if_pos (Or.inr (by decide))]
    exact List.mem_map_of_mem _ hpr
  · intro pr hpr
    unfold detectAll
    refine List.mem_append_left _ ?_
    unfold regexMatches
    rw [List.mem_flatMap]
    refine ⟨("POLICY_NUMBER", policyNumRE), ?_, ?_⟩
    · unfold patterns
      exact List.mem_cons_of_mem _ (List.mem_cons_of_mem _ (List.mem_cons_of_mem _
        (List.mem_cons_of_mem _ (List.mem_cons_of_mem _ (List.mem_cons_of_mem _
          (List.mem_cons_of_mem _ (List.mem_cons_self _ _)))))))
    rw [if_pos (Or.inr (by decide))]
    exact List.mem_map_of_mem _ hpr
  · intro m hm
    exact filtered_in_mappings rfl hm

/-- C2 witness: with an empty entity configuration, `"Ref CLM-123456"` still
has its claim number collected, accepted and replaced. -/
theorem c2_claim_policy_always_witness :
    ((4, 14) ∈ finditer claimNumRE "Ref CLM-123456".data ∧
      (⟨4, 14, "CLAIM_NUMBER", strSlice "Ref CLM-123456".data 4 14⟩ : PIIEntityMatch) ∈
        detectAll ⟨true, []⟩ "Ref CLM-123456".data) ∧
    ((⟨4, 14, "CLAIM_NUMBER", "CLM-123456".data⟩ : PIIEntityMatch) ∈
        filteredMatches ⟨true, []⟩ "Ref CLM-123456".data ∧
      ∃ mp ∈ (redact ⟨true, []⟩ "Ref CLM-123456".data).mappings,
        mp.start = 4 ∧ mp.«end» = 14 ∧
        mp.entity_type = "CLAIM_NUMBER" ∧ mp.original = "CLM-123456".data) := by
  have h := c2_claim_policy_always [] "Ref CLM-123456".data
  refine ⟨⟨by decide, h.1 (4, 14) (by decide)⟩, ⟨by decide, ?_⟩⟩
  exact h.2.2 ⟨4, 14, "CLAIM_NUMBER", "CLM-123456".data⟩ (by decide)

/-! ## Round-trip infrastructure: prefix tests and `str.replace` -/

theorem leadsWith_iff : ∀ (p s : Str), leadsWith p s = true ↔ ∃ u, s = p ++ u := by
  intro p
  induction p with
  | nil => intro s; simp [leadsWith]
  | cons a as ih =>
      intro s
      cases s with
      | nil =>
          simp only [leadsWith, List.cons_append]
          constructor
          · intro h; cases h
          · rintro ⟨u, hu⟩; cases hu
      | cons b bs =>
          simp only [leadsWith, Bool.and_eq_true, decide_eq_true_eq, ih]
          constructor
          · rintro ⟨rfl, u, rfl⟩
            exact ⟨u, rfl⟩
          · rintro ⟨u, hu⟩
            rw [List.cons_append] at hu
            injection hu with h1 h2
            exact ⟨h1.symm, u, h2⟩

theorem leadsWith_append_self (p u : Str) : leadsWith p (p ++ u) = true :=
  (leadsWith_iff p (p ++ u)).mpr ⟨u, rfl⟩

theorem leadsWith_head_ne {c d : Char} (h : c ≠ d) (p s : Str) :
    leadsWith (c :: p) (d :: s) = false := by
  simp [leadsWith, h]

theorem replaceAllAux_cons (pat rep : Str) (c : Char) (rest : Str) (fuel : Nat) :
    replaceAllAux pat rep (c :: rest) (fuel + 1) =
      if pat ≠ [] ∧ leadsWith pat (c :: rest) = true then
        rep ++ replaceAllAux pat rep ((c :: rest).drop pat.length) fuel
      else c :: replaceAllAux pat rep rest fuel := rfl

theorem replaceAllAux_nil (pat rep : Str) : ∀ fuel, replaceAllAux pat rep [] fuel = []
  | 0 => rfl
  | _ + 1 => rfl

theorem leadsWith_length {p s : Str} (h : leadsWith p s = true) :
    p.length ≤ s.length := by
  obtain ⟨u, rfl⟩ := (leadsWith_iff p s).mp h
  simp

theorem replaceAllAux_congr (pat rep : Str) :
    ∀ (f1 : Nat) (s : Str) (f2 : Nat), s.length ≤ f1 → s.length ≤ f2 →
      replaceAllAux pat rep s f1 = replaceAllAux pat rep s f2 := by
  intro f1
  induction f1 with
  | zero =>
      intro s f2 h1 _
      have : s = [] := List.length_eq_zero.mp (by omega)
      subst this
      rw [replaceAllAux_nil, replaceAllAux_nil]
  | succ f1' ih =>
      intro s f2 h1 h2
      cases s with
      | nil => rw [replaceAllAux_nil, replaceAllAux_nil]
      | cons c rest =>
          cases f2 with
          | zero => simp at h2
          | succ f2' =>
              rw [replaceAllAux_cons, replaceAllAux_cons]
              by_cases hcond : pat ≠ [] ∧ leadsWith pat (c :: rest) = true
              · rw [if_pos hcond, if_pos hcond]
                have hlen := leadsWith_length hcond.2
                have hpat : 1 ≤ pat.length := by
                  cases hp : pat with
                  | nil => exact absurd hp hcond.1
                  | cons x xs => simp
                congr 1
                refine ih _ _ ?_ ?_ <;>
                  simp only [List.length_drop, List.length_cons] at * <;> omega
              · rw [if_neg hcond, if_neg hcond]
                congr 1
                refine ih rest f2' ?_ ?_ <;>
                  simp only [List.length_cons] at h1 h2 <;> omega

theorem replaceAll_append_skip (pat rep : Str) :
    ∀ (A B : Str), (∀ i, i < A.length → leadsWith pat (A.drop i ++ B) = false) →
      replaceAll (A ++ B) pat rep = A ++ replaceAll B pat rep := by
  intro A
  induction A with
  | nil => intro B _; simp
  | cons c rest ih =>
      intro B h
      show replaceAllAux pat rep (c :: (rest ++ B)) ((c :: (rest ++ B)).length) = _
      rw [List.length_cons, replaceAllAux_cons]
      have h0 : leadsWith pat (c :: (rest ++ B)) = false := by
        have := h 0 (by simp)
        simpa using this
      rw [if_neg (by rw [h0]; rintro ⟨-, hh⟩; cases hh)]
      have : replaceAllAux pat rep (rest ++ B) (rest ++ B).length =
          replaceAll (rest ++ B) pat rep := rfl
      rw [this, ih B (fun i hi => by simpa using h (i + 1) (by simp; omega))]
      rfl

theorem replaceAll_hit (pat rep t : Str) (hne : pat ≠ []) :
    replaceAll (pat ++ t) pat rep = rep ++ replaceAll t pat rep := by
  cases hp : pat with
  | nil => exact absurd hp hne
  | cons c p' =>
      subst hp
      show replaceAllAux (c :: p') rep ((c :: p') ++ t) ((c :: p') ++ t).length = _
      rw [List.cons_append, List.length_cons, replaceAllAux_cons]
      have hlw : leadsWith (c :: p') (c :: (p' ++ t)) = true := by
        rw [← List.cons_append]
        exact leadsWith_append_self (c :: p') t
      rw [if_pos ⟨by simp, hlw⟩]
      congr 1
      have hdrop : (c :: (p' ++ t)).drop (c :: p').length = t := by
        rw [← List.cons_append]
        exact List.drop_left _ _
      rw [hdrop]
      refine replaceAllAux_congr _ _ _ _ _ ?_ ?_ <;> simp

/-! ## Chunk decomposition of the redacted text -/

/-- A redacted text decomposes into plain segments of the input and the
spliced placeholders. -/
inductive Chunk where
  | plain (s : Str)
  | ph (p : Str)
deriving DecidableEq

def Chunk.flat : Chunk → Str
  | .plain s => s
  | .ph p => p

def flattenChunks (l : List Chunk) : Str :=
  l.foldr (fun c acc => c.flat ++ acc) []

theorem flattenChunks_append (A B : List Chunk) :
    flattenChunks (A ++ B) = flattenChunks A ++ flattenChunks B := by
  induction A with
  | nil => rfl
  | cons c rest ih =>
      show c.flat ++ flattenChunks (rest ++ B) = (c.flat ++ flattenChunks rest) ++ _
      rw [ih, List.append_assoc]

/-- The chunk decomposition induced by splicing the (descending, disjoint)
mappings `l` into `t`. -/
def chunksOf (t : Str) : List PIIMapping → List Chunk
  | [] => [.plain t]
  | mp :: l =>
      chunksOf (t.take mp.start) l ++ [.ph mp.placeholder, .plain (t.drop mp.«end»)]

theorem applyReplace_cons :
    ∀ (l : List PIIMapping) (t : Str) (mp : PIIMapping),
      mp.start ≤ mp.«end» → mp.«end» ≤ t.length →
      (∀ q ∈ l, q.start ≤ q.«end» ∧ q.«end» ≤ mp.start) →
      l.Pairwise (fun a b => b.«end» ≤ a.start) →
      applyReplace t (mp :: l) =
        applyReplace (t.take mp.start) l ++ mp.placeholder ++ t.drop mp.«end» := by
  intro l
  induction l with
  | nil =>
      intro t mp _ _ _ _
      rfl
  | cons q l2 ih =>
      intro t mp hse hel hl hld
      have hq := hl q (List.mem_cons_self _ _)
      have hqse := hq.1
      have hqs := hq.2
      have hmslen : (t.take mp.start).length = mp.start := by
        rw [List.length_take]; omega
      have hl2 : ∀ r ∈ l2, r.start ≤ r.«end» ∧ r.«end» ≤ q.start := by
        intro r hr
        exact ⟨(hl r (List.mem_cons_of_mem _ hr)).1,
          (List.pairwise_cons.mp hld).1 r hr⟩
      have hld2 : l2.Pairwise (fun a b => b.«end» ≤ a.start) :=
        (List.pairwise_cons.mp hld).2
      -- unfold one foldl step on the left
      have hstep : applyReplace t (mp :: q :: l2) =
          applyReplace (t.take mp.start ++ mp.placeholder ++ t.drop mp.«end»)
            (q :: l2) := rfl
      rw [hstep]
      set t1 := t.take mp.start ++ mp.placeholder ++ t.drop mp.«end» with ht1
      have ht1len : mp.start ≤ t1.length := by
        rw [ht1]
        simp only [List.append_assoc, List.length_append]
        omega
      have h1 : applyReplace t1 (q :: l2) =
          applyReplace (t1.take q.start) l2 ++ q.placeholder ++ t1.drop q.«end» :=
        ih t1 q hqse (by omega) hl2 hld2
      have h2 : applyReplace (t.take mp.start) (q :: l2) =
          applyReplace ((t.take mp.start).take q.start) l2 ++ q.placeholder ++
            (t.take mp.start).drop q.«end» :=
        ih (t.take mp.start) q hqse (by omega) hl2 hld2
      rw [h1, h2]
      have htake : t1.take q.start = (t.take mp.start).take q.start := by
        rw [ht1, List.append_assoc, List.take_append_of_le_length (by omega)]
      have hdrop : t1.drop q.«end» =
          (t.take mp.start).drop q.«end» ++ (mp.placeholder ++ t.drop mp.«end») := by
        rw [ht1, List.append_assoc, List.drop_append_of_le_length (by omega)]
      rw [htake, hdrop]
      simp [List.append_assoc]

theorem applyReplace_chunks :
    ∀ (l : List PIIMapping) (t : Str),
      (∀ mp ∈ l, mp.start ≤ mp.«end» ∧ mp.«end» ≤ t.length) →
      l.Pairwise (fun a b => b.«end» ≤ a.start) →
      applyReplace t l = flattenChunks (chunksOf t l) := by
  intro l
  induction l with
  | nil =>
      intro t _ _
      show t = flattenChunks [.plain t]
      show t = t ++ []
      rw [List.append_nil]
  | cons mp l2 ih =>
      intro t hb hd
      have hmp := hb mp (List.mem_cons_self _ _)
      have hl2 : ∀ q ∈ l2, q.start ≤ q.«end» ∧ q.«end» ≤ mp.start := by
        intro q hq
        exact ⟨(hb q (List.mem_cons_of_mem _ hq)).1,
          (List.pairwise_cons.mp hd).1 q hq⟩
      rw [applyReplace_cons l2 t mp hmp.1 hmp.2 hl2 (List.pairwise_cons.mp hd).2]
      have hb2 : ∀ q ∈ l2, q.start ≤ q.«end» ∧ q.«end» ≤ (t.take mp.start).length := by
        intro q hq
        refine ⟨(hl2 q hq).1, ?_⟩
        rw [List.length_take]
        have := (hl2 q hq).2
        have := hmp.2
        have := hmp.1
        omega
      rw [ih (t.take mp.start) hb2 (List.pairwise_cons.mp hd).2]
      show _ = flattenChunks (chunksOf (t.take mp.start) l2 ++ [_, _])
      rw [flattenChunks_append]
      show _ = _ ++ (mp.placeholder ++ (t.drop mp.«end» ++ []))
      rw [List.append_nil, ← List.append_assoc]

/-! ## Bracketed placeholders never collide -/

theorem bracket_body_eq :
    ∀ (w v u t' : Str), (∀ c ∈ w, c ≠ ']') → (∀ c ∈ v, c ≠ ']') →
      (w ++ [']']) ++ u = (v ++ [']']) ++ t' → w = v := by
  intro w
  induction w with
  | nil =>
      intro v u t' _ hv heq
      cases v with
      | nil => rfl
      | cons b v' =>
          rw [List.nil_append, List.cons_append, List.cons_append, List.cons_append] at heq
          injection heq with h1 _
          exact absurd h1.symm (hv b (List.mem_cons_self _ _))
  | cons a w' ih =>
      intro v u t' hw hv heq
      cases v with
      | nil =>
          rw [List.nil_append, List.cons_append, List.cons_append, List.cons_append] at heq
          injection heq with h1 _
          exact absurd h1 (hw a (List.mem_cons_self _ _))
      | cons b v' =>
          rw [List.cons_append, List.cons_append, List.cons_append, List.cons_append] at heq
          injection heq with h1 h2
          rw [h1, ih v' u t' (fun c hc => hw c (List.mem_cons_of_mem _ hc))
            (fun c hc => hv c (List.mem_cons_of_mem _ hc)) h2]

theorem bracketed_no_lead {p q : Str} (hp : IsBracketed p) (hq : IsBracketed q)
    (hne : p ≠ q) (t : Str) : leadsWith p (q ++ t) = false := by
  obtain ⟨w, rfl, hw⟩ := hp
  obtain ⟨v, rfl, hv⟩ := hq
  by_contra hcon
  have htrue : leadsWith ('[' :: (w ++ [']'])) (('[' :: (v ++ [']'])) ++ t) = true := by
    cases hlw : leadsWith ('[' :: (w ++ [']'])) (('[' :: (v ++ [']'])) ++ t)
    · exact absurd hlw hcon
    · rfl
  obtain ⟨u, hu⟩ := (leadsWith_iff _ _).mp htrue
  rw [List.cons_append] at hu
  injection hu with _ h2
  have hwv : v = w := bracket_body_eq v w t u
    (fun c hc => (hv c hc).2) (fun c hc => (hw c hc).2) h2
  exact hne (by rw [hwv])

theorem bracketed_ne_nil {p : Str} (hp : IsBracketed p) : p ≠ [] := by
  obtain ⟨w, rfl, -⟩ := hp
  simp

theorem bracketed_head {p : Str} (hp : IsBracketed p) :
    ∃ p', p = '[' :: p' := by
  obtain ⟨w, rfl, -⟩ := hp
  exact ⟨_, rfl⟩

/-- No occurrence of a bracketed pattern starts inside a bracket-free
segment. -/
theorem no_hit_plain {pat s : Str} (hp : IsBracketed pat) (hs : '[' ∉ s) :
    ∀ i, i < s.length → ∀ B, leadsWith pat (s.drop i ++ B) = false := by
  intro i hi B
  obtain ⟨p', rfl⟩ := bracketed_head hp
  cases hd : s.drop i with
  | nil =>
      exfalso
      have hlen : s.length - i = 0 := by
        rw [← List.length_drop, hd]
        rfl
      omega
  | cons c rest =>
      have hcs : c ∈ s := by
        have : c ∈ s.drop i := by rw [hd]; exact List.mem_cons_self _ _
        exact List.drop_subset _ _ this
      have hcne : '[' ≠ c := fun hh => hs (hh ▸ hcs)
      rw [List.cons_append]
      exact leadsWith_head_ne hcne _ _

/-- No occurrence of a bracketed pattern starts inside a different bracketed
placeholder. -/
theorem no_hit_ph {pat q : Str} (hpat : IsBracketed pat) (hq : IsBracketed q)
    (hne : q ≠ pat) : ∀ i, i < q.length → ∀ B, leadsWith pat (q.drop i ++ B) = false := by
  intro i hi B
  cases i with
  | zero =>
      rw [List.drop_zero]
      exact bracketed_no_lead hpat hq (fun hh => hne hh.symm) B
  | succ i' =>
      obtain ⟨p', rfl⟩ := bracketed_head hpat
      obtain ⟨w, rfl, hw⟩ := hq
      rw [List.drop_succ_cons]
      cases hd : (w ++ [']']).drop i' with
      | nil =>
          exfalso
          have hlen : (w ++ [']']).length - i' = 0 := by
            rw [← List.length_drop, hd]
            rfl
          have hq : i' + 1 < ('[' :: (w ++ [']'])).length := hi
          rw [List.length_cons] at hq
          omega
      | cons c rest =>
          have hcs : c ∈ w ++ [']'] := by
            have : c ∈ (w ++ [']']).drop i' := by rw [hd]; exact List.mem_cons_self _ _
            exact List.drop_subset _ _ this
          have hcne : '[' ≠ c := by
            rcases List.mem_append.mp hcs with h | h
            · exact fun hh => (hw c h).1 hh.symm
            · rw [List.mem_singleton.mp h]; decide
          rw [List.cons_append]
          exact leadsWith_head_ne hcne _ _

/-! ## Substitution of one placeholder in a chunk list -/

def substChunk (pat rep : Str) : Chunk → Chunk
  | .plain s => .plain s
  | .ph q => if q = pat then .plain rep else .ph q

theorem replaceAll_flattenChunks (pat rep : Str) (hpat : IsBracketed pat) :
    ∀ (P : List Chunk),
      (∀ s, Chunk.plain s ∈ P → '[' ∉ s) →
      (∀ q, Chunk.ph q ∈ P → IsBracketed q) →
      replaceAll (flattenChunks P) pat rep =
        flattenChunks (P.map (substChunk pat rep)) := by
  intro P
  induction P with
  | nil => intro _ _; rfl
  | cons c P' ih =>
      intro hplain hph
      have hplain' : ∀ s, Chunk.plain s ∈ P' → '[' ∉ s :=
        fun s hs => hplain s (List.mem_cons_of_mem _ hs)
      have hph' : ∀ q, Chunk.ph q ∈ P' → IsBracketed q :=
        fun q hq => hph q (List.mem_cons_of_mem _ hq)
      cases c with
      | plain s =>
          show replaceAll (s ++ flattenChunks P') pat rep =
            s ++ flattenChunks (P'.map (substChunk pat rep))
          rw [replaceAll_append_skip pat rep s (flattenChunks P')
            (fun i hi => no_hit_plain hpat (hplain s (List.mem_cons_self _ _)) i hi _),
            ih hplain' hph']
      | ph q =>
          by_cases hqp : q = pat
          · show replaceAll (q ++ flattenChunks P') pat rep =
              flattenChunks (substChunk pat rep (.ph q) :: P'.map (substChunk pat rep))
            have hsub : substChunk pat rep (.ph q) = .plain rep := by
              show (if q = pat then Chunk.plain rep else Chunk.ph q) = _
              rw [if_pos hqp]
            rw [hsub, hqp, replaceAll_hit pat rep _ (bracketed_ne_nil hpat),
              ih hplain' hph']
            rfl
          · show replaceAll (q ++ flattenChunks P') pat rep =
              flattenChunks (substChunk pat rep (.ph q) :: P'.map (substChunk pat rep))
            have hsub : substChunk pat rep (.ph q) = .ph q := by
              show (if q = pat then Chunk.plain rep else Chunk.ph q) = _
              rw [if_neg hqp]
            rw [hsub, replaceAll_append_skip pat rep q (flattenChunks P')
              (fun i hi => no_hit_ph hpat (hph q (List.mem_cons_self _ _)) hqp i hi _),
              ih hplain' hph']
            rfl

/-! ## Replaying all restorations over a chunk list -/

/-- Substitute every placeholder that some mapping of `ms` carries by that
mapping's original (the first such mapping wins, as in sequential
`str.replace`). -/
def substMs (ms : List PIIMapping) : Chunk → Chunk
  | .plain s => .plain s
  | .ph q =>
      match ms.find? (fun m => m.placeholder = q) with
      | some m => .plain m.original
      | none => .ph q

theorem substMs_nil : ∀ c : Chunk, substMs [] c = c := by
  intro c
  cases c with
  | plain s => rfl
  | ph q => rfl

theorem substMs_cons (m : PIIMapping) (ms : List PIIMapping) (c : Chunk) :
    substMs (m :: ms) c = substMs ms (substChunk m.placeholder m.original c) := by
  cases c with
  | plain s => rfl
  | ph q =>
      by_cases hq : q = m.placeholder
      · have h1 : substMs (m :: ms) (.ph q) = .plain m.original := by
          show (match (m :: ms).find? (fun m' => m'.placeholder = q) with
            | some m' => Chunk.plain m'.original
            | none => Chunk.ph q) = _
          rw [List.find?_cons_of_pos _ (by simp [hq])]
        have h2 : substChunk m.placeholder m.original (.ph q) = .plain m.original := by
          show (if q = m.placeholder then Chunk.plain m.original else Chunk.ph q) = _
          rw [if_pos hq]
        rw [h1, h2]
        rfl
      · have h1 : substMs (m :: ms) (.ph q) = substMs ms (.ph q) := by
          show (match (m :: ms).find? (fun m' => m'.placeholder = q) with
            | some m' => Chunk.plain m'.original
            | none => Chunk.ph q) = _
          rw [List.find?_cons_of_neg _ (by simp; exact fun hh => hq hh.symm)]
          rfl
        have h2 : substChunk m.placeholder m.original (.ph q) = .ph q := by
          show (if q = m.placeholder then Chunk.plain m.original else Chunk.ph q) = _
          rw [if_neg hq]
        rw [h1, h2]

theorem foldl_replaceAll_chunks :
    ∀ (ms : List PIIMapping) (P : List Chunk),
      (∀ s, Chunk.plain s ∈ P → '[' ∉ s) →
      (∀ q, Chunk.ph q ∈ P → IsBracketed q) →
      (∀ m ∈ ms, IsBracketed m.placeholder ∧ '[' ∉ m.original) →
      ms.foldl (fun t m => replaceAll t m.placeholder m.original) (flattenChunks P) =
        flattenChunks (P.map (substMs ms)) := by
  intro ms
  induction ms with
  | nil =>
      intro P _ _ _
      have hmap : P.map (substMs []) = P := by
        rw [List.map_congr_left (fun c _ => substMs_nil c), List.map_id']
      show flattenChunks P = flattenChunks (P.map (substMs []))
      rw [hmap]
  | cons m ms' ih =>
      intro P hplain hph hms
      have hm := hms m (List.mem_cons_self _ _)
      show List.foldl _ (replaceAll (flattenChunks P) m.placeholder m.original) ms' = _
      rw [replaceAll_flattenChunks m.placeholder m.original hm.1 P hplain hph]
      have hplain2 : ∀ s, Chunk.plain s ∈ P.map (substChunk m.placeholder m.original) →
          '[' ∉ s := by
        intro s hs
        obtain ⟨c, hc, hcs⟩ := List.mem_map.mp hs
        cases c with
        | plain s' =>
            have : s' = s := by
              have : Chunk.plain s' = Chunk.plain s := hcs
              cases this; rfl
            exact this ▸ hplain s' hc
        | ph q =>
            by_cases hq : q = m.placeholder
            · have : Chunk.plain m.original = Chunk.plain s := by
                rw [← hcs]
                show Chunk.plain m.original = (if q = m.placeholder then
                  Chunk.plain m.original else Chunk.ph q)
                rw [if_pos hq]
              cases this
              exact hm.2
            · exfalso
              have : Chunk.ph q = Chunk.plain s := by
                rw [← hcs]
                show Chunk.ph q = (if q = m.placeholder then
                  Chunk.plain m.original else Chunk.ph q)
                rw [if_neg hq]
              cases this
      have hph2 : ∀ q, Chunk.ph q ∈ P.map (substChunk m.placeholder m.original) →
          IsBracketed q := by
        intro q hq
        obtain ⟨c, hc, hcs⟩ := List.mem_map.mp hq
        cases c with
        | plain s' => cases hcs
        | ph q' =>
            by_cases hq' : q' = m.placeholder
            · exfalso
              have : Chunk.plain m.original = Chunk.ph q := by
                rw [← hcs]
                show Chunk.plain m.original = (if q' = m.placeholder then
                  Chunk.plain m.original else Chunk.ph q')
                rw [if_pos hq']
              cases this
            · have : Chunk.ph q' = Chunk.ph q := by
                rw [← hcs]
                show Chunk.ph q' = (if q' = m.placeholder then
                  Chunk.plain m.original else Chunk.ph q')
                rw [if_neg hq']
              cases this
              exact hph q hc
      rw [ih (P.map (substChunk m.placeholder m.original)) hplain2 hph2
        (fun m' hm' => hms m' (List.mem_cons_of_mem _ hm'))]
      rw [List.map_map]
      congr 1
      exact List.map_congr_left (fun c _ => (substMs_cons m ms' c).symm)

/-! ## The sort of `restore` permutes the mappings -/

theorem insertByPhDesc_perm (m : PIIMapping) :
    ∀ l : List PIIMapping, (insertByPhDesc m l).Perm (m :: l) := by
  intro l
  induction l with
  | nil => simp [insertByPhDesc]
  | cons y ys ih =>
      unfold insertByPhDesc
      by_cases hc : strLt m.placeholder y.placeholder
      · rw [if_pos hc]
        exact (ih.cons y).trans (List.Perm.swap m y ys)
      · rw [if_neg hc]

theorem sortByPhDesc_perm :
    ∀ l : List PIIMapping, (sortByPhDesc l).Perm l := by
  intro l
  induction l with
  | nil => simp [sortByPhDesc]
  | cons m ms ih =>
      unfold sortByPhDesc
      exact (insertByPhDesc_perm m (sortByPhDesc ms)).trans (ih.cons m)

/-! ## Chunk invariants of the decomposition -/

theorem chunksOf_plain_sub :
    ∀ (l : List PIIMapping) (t : Str) (s : Str),
      Chunk.plain s ∈ chunksOf t l → ∀ c ∈ s, c ∈ t := by
  intro l
  induction l with
  | nil =>
      intro t s hs c hc
      rw [chunksOf] at hs
      rw [List.mem_singleton] at hs
      cases hs
      exact hc
  | cons mp l2 ih =>
      intro t s hs c hc
      rw [chunksOf] at hs
      rcases List.mem_append.mp hs with h | h
      · exact List.take_subset _ _ (ih (t.take mp.start) s h c hc)
      · rcases List.mem_cons.mp h with h' | h'
        · cases h'
        · rw [List.mem_singleton] at h'
          cases h'
          exact List.drop_subset _ _ hc

theorem chunksOf_ph_sub :
    ∀ (l : List PIIMapping) (t : Str) (q : Str),
      Chunk.ph q ∈ chunksOf t l → ∃ mp ∈ l, q = mp.placeholder := by
  intro l
  induction l with
  | nil =>
      intro t q hq
      rw [chunksOf] at hq
      rw [List.mem_singleton] at hq
      cases hq
  | cons mp l2 ih =>
      intro t q hq
      rw [chunksOf] at hq
      rcases List.mem_append.mp hq with h | h
      · obtain ⟨mp', hmp', rfl⟩ := ih (t.take mp.start) q h
        exact ⟨mp', List.mem_cons_of_mem _ hmp', rfl⟩
      · rcases List.mem_cons.mp h with h' | h'
        · cases h'
          exact ⟨mp, List.mem_cons_self _ _, rfl⟩
        · rw [List.mem_singleton] at h'
          cases h'

/-! ## Final assembly: the fully substituted decomposition is the input -/

theorem strSlice_take {t : Str} {a b s : Nat} (hb : b ≤ s) :
    strSlice (t.take s) a b = strSlice t a b := by
  unfold strSlice
  rw [List.drop_take]
  rw [List.take_take]
  congr 1
  omega

theorem take_slice_drop (t : Str) (s e : Nat) (hse : s ≤ e) (hel : e ≤ t.length) :
    t.take s ++ strSlice t s e ++ t.drop e = t := by
  have h1 : strSlice t s e ++ t.drop e = t.drop s := by
    unfold strSlice
    have h2 : t.drop e = (t.drop s).drop (e - s) := by
      rw [List.drop_drop]
      congr 1
      omega
    rw [h2]
    exact List.take_append_drop _ _
  rw [List.append_assoc, h1, List.take_append_drop]

theorem flatten_substMs_chunksOf :
    ∀ (l : List PIIMapping) (t : Str) (ms : List PIIMapping),
      (∀ mp ∈ l, mp.start ≤ mp.«end» ∧ mp.«end» ≤ t.length ∧
        ∃ m', ms.find? (fun m => m.placeholder = mp.placeholder) = some m' ∧
          m'.original = strSlice t mp.start mp.«end») →
      l.Pairwise (fun a b => b.«end» ≤ a.start) →
      flattenChunks ((chunksOf t l).map (substMs ms)) = t := by
  intro l
  induction l with
  | nil =>
      intro t ms _ _
      show flattenChunks [substMs ms (.plain t)] = t
      show t ++ [] = t
      rw [List.append_nil]
  | cons mp l2 ih =>
      intro t ms hh hd
      have hmp := hh mp (List.mem_cons_self _ _)
      obtain ⟨hse, hel, m', hfind, horig⟩ := hmp
      rw [chunksOf, List.map_append, flattenChunks_append]
      have hh2 : ∀ q ∈ l2, q.start ≤ q.«end» ∧ q.«end» ≤ (t.take mp.start).length ∧
          ∃ m', ms.find? (fun m => m.placeholder = q.placeholder) = some m' ∧
            m'.original = strSlice (t.take mp.start) q.start q.«end» := by
        intro q hq
        have h1 := hh q (List.mem_cons_of_mem _ hq)
        have h2 : q.«end» ≤ mp.start := (List.pairwise_cons.mp hd).1 q hq
        obtain ⟨hq1, hq2, m2, hf2, ho2⟩ := h1
        refine ⟨hq1, ?_, m2, hf2, ?_⟩
        · rw [List.length_take]; omega
        · rw [strSlice_take h2]; exact ho2
      rw [ih (t.take mp.start) ms hh2 (List.pairwise_cons.mp hd).2]
      have hsub : substMs ms (.ph mp.placeholder) = .plain m'.original := by
        show (match ms.find? (fun m => m.placeholder = mp.placeholder) with
          | some m => Chunk.plain m.original
          | none => Chunk.ph mp.placeholder) = _
        rw [hfind]
      show t.take mp.start ++ flattenChunks [substMs ms (.ph mp.placeholder),
        substMs ms (.plain (t.drop mp.«end»))] = t
      rw [hsub]
      show t.take mp.start ++ (m'.original ++ (t.drop mp.«end» ++ [])) = t
      rw [List.append_nil, horig, ← List.append_assoc]
      exact take_slice_drop t mp.start mp.«end» hse hel

/-! ## The round-trip law -/

theorem strSlice_subset (t : Str) (a b : Nat) : ∀ c ∈ strSlice t a b, c ∈ t :=
  fun c hc => List.drop_subset a t (List.take_subset _ _ hc)

theorem procMappings_facts {cfg : RedactorConfig} {text : Str}
    (hbr : '[' ∉ text) :
    ∀ mp ∈ procMappings cfg text,
      mp.start ≤ mp.«end» ∧ mp.«end» ≤ text.length ∧
      mp.original = strSlice text mp.start mp.«end» ∧
      IsBracketed mp.placeholder ∧ '[' ∉ mp.original := by
  intro mp hmp
  obtain ⟨m, hm, ho, hty, hs, he, n, hph⟩ := procMappings_mem hmp
  have hd := detectAll_mem (filteredMatches_mem hm)
  refine ⟨?_, ?_, ?_, ?_, ?_⟩
  · rw [hs, he]
    have := hd.2.1
    omega
  · rw [he]; exact hd.2.2.1
  · rw [ho, hs, he]; exact hd.1
  · rw [hph]; exact mkPlaceholder_bracketed hd.2.2.2 n
  · rw [ho, hd.1]
    intro hcmem
    exact hbr (strSlice_subset text m.start m.«end» '[' hcmem)

theorem procMappings_desc (cfg : RedactorConfig) (text : Str) :
    (procMappings cfg text).Pairwise (fun a b => b.«end» ≤ a.start) := by
  have h := filteredMatches_desc cfg text
  rw [← phSeq_fst (filteredMatches cfg text) []] at h
  have h' := List.pairwise_map.mp h
  unfold procMappings opsOf
  exact List.pairwise_map.mpr h'

/-- C1 (amended): for every configuration with the engine enabled and every
input text in which the character `[` does not occur, restoring the redacted
text through the returned mappings recovers the input verbatim. -/
theorem c1_roundtrip_bracket_free (cfg : RedactorConfig) (text : Str)
    (hen : cfg.enabled = true) (hbr : '[' ∉ text) :
    restore (redact cfg text).redacted_text (redact cfg text).mappings = text := by
  by_cases hne : text = []
  · subst hne
    unfold redact
    rw [hen]
    simp only [Bool.not_true, Bool.false_eq_true, if_false, List.isEmpty_nil, if_true]
    rfl
  · obtain ⟨hmap, hred, -⟩ := redact_char cfg text hen hne
    rw [hmap, hred]
    have hLfacts := @procMappings_facts cfg text hbr
    have hLdesc := procMappings_desc cfg text
    set L := procMappings cfg text with hLdef
    set ms := sortByPhDesc L.reverse with hmsdef
    have hperm : ms.Perm L := (sortByPhDesc_perm _).trans (List.reverse_perm L)
    show ms.foldl (fun t m => replaceAll t m.placeholder m.original)
      (applyReplace text L) = text
    rw [applyReplace_chunks L text
      (fun mp hmp => ⟨(hLfacts mp hmp).1, (hLfacts mp hmp).2.1⟩) hLdesc]
    rw [foldl_replaceAll_chunks ms (chunksOf text L)
      (fun s hs hmem => hbr (chunksOf_plain_sub L text s hs '[' hmem))
      (fun q hq => by
        obtain ⟨mp, hmp, rfl⟩ := chunksOf_ph_sub L text q hq
        exact (hLfacts mp hmp).2.2.2.1)
      (fun m hm => ⟨(hLfacts m (hperm.subset hm)).2.2.2.1,
        (hLfacts m (hperm.subset hm)).2.2.2.2⟩)]
    have hnodupL : (L.map (fun mp => mp.placeholder)).Nodup :=
      procMappings_ph_nodup cfg text
    have hnodup : (ms.map (fun mp => mp.placeholder)).Nodup :=
      ((hperm.map _).nodup_iff).mpr hnodupL
    refine flatten_substMs_chunksOf L text ms ?_ hLdesc
    intro mp hmp
    have hf := hLfacts mp hmp
    refine ⟨hf.1, hf.2.1, ?_⟩
    have hmem : mp ∈ ms := hperm.mem_iff.mpr hmp
    have hsome : (ms.find? (fun m => m.placeholder = mp.placeholder)).isSome := by
      rw [List.find?_isSome]
      exact ⟨mp, hmem, by simp⟩
    obtain ⟨m', hm'⟩ := Option.isSome_iff_exists.mp hsome
    refine ⟨m', hm', ?_⟩
    have hpred : m'.placeholder = mp.placeholder := by
      have := List.find?_some hm'
      simpa using this
    have hm'mem : m' ∈ ms := List.mem_of_find?_eq_some hm'
    have heq : m' = mp :=
      List.inj_on_of_nodup_map hnodup hm'mem hmem hpred
    rw [heq]
    exact hf.2.2.1

/-- The C1 counterexample input: a text that already contains the very
placeholder the engine will generate. -/
def ssnCfg : RedactorConfig := ⟨true, ["US_SSN"]⟩

def trapText : Str := "[SSN_1] 123-45-6789".data

/-- C1 counterexample: on `"[SSN_1] 123-45-6789"` the engine is enabled and
the single accepted span is replaced, yet the round trip does not recover the
input — `str.replace` also rewrites the pre-existing literal `[SSN_1]`. -/
theorem c1_roundtrip_counterexample :
    ssnCfg.enabled = true ∧
    (redact ssnCfg trapText).mappings.length = 1 ∧
    (redact ssnCfg trapText).redacted_text = "[SSN_1] [SSN_1]".data ∧
    restore (redact ssnCfg trapText).redacted_text
        (redact ssnCfg trapText).mappings ≠ trapText := by
  refine ⟨rfl, by decide, by decide, by decide⟩

/-- C1 witness: the round-trip law instantiated on
`"SSN is 123-45-6789"` (no `[` in the input). -/
theorem c1_roundtrip_bracket_free_witness :
    (ssnCfg.enabled = true ∧ '[' ∉ "SSN is 123-45-6789".data) ∧
    restore (redact ssnCfg "SSN is 123-45-6789".data).redacted_text
        (redact ssnCfg "SSN is 123-45-6789".data).mappings =
      "SSN is 123-45-6789".data := by
  refine ⟨⟨rfl, by decide⟩, ?_⟩
  exact c1_roundtrip_bracket_free ssnCfg "SSN is 123-45-6789".data rfl (by decide)

end CIA

